import Mathlib

/-!
# Verification of the MCTS core of board-game-rs

This file gives a shallow embedding of the AlphaZero-style MCTS engine of the
repository and proves / refutes the specification claims about it.

Embedded source files:
* `rust/src/mcts_zero.rs` — the zero-style tree search (`Node`, `Tree`,
  `mcts_zero_build_tree`, `MCTSZeroBot::play`).
* `src/mcts/mod.rs` — the older playout-based search (`mcts_evaluate`,
  `do_batch_evals`).
* `rust/src/selfplay/mod.rs` — `MoveSelector::select`.

Modelling conventions:
* The game (`sttt::board::Board`) is an external collaborator; it is modelled by
  the abstract interface `Game` (outcome, available move list, play).
* `f32` arithmetic is modelled exactly over `ℚ`.  The special values produced by
  dividing by zero are modelled explicitly by the carrier `F32`
  (`nan`, `inf`, `ninf`), and the total order the code puts on `f32` through the
  `ordered_float::OrderedFloat` wrapper (NaN greatest, equal to itself) is the
  order used for `max_by_key`.  The only irrational operation, `f32::sqrt`, is
  passed in as an explicit parameter `sq`, since none of the claims depend on
  the numeric value of the square root.
* Rust panics (`assert!`, `expect`, out-of-bounds `Vec` indexing) are modelled
  with `Except String`; an infinite loop on a malformed tree is modelled by
  running out of fuel, which also produces an error.
* `Iterator::max_by_key` returns the *last* maximal element; `itertools`'
  `position_max` likewise returns the position of the last maximum.  Both are
  modelled by a left fold that replaces the current best on `≤`.
-/

namespace BoardGameRs

/-- Players of the game (sttt `Player`: the two sides plus `Neutral` for draws). -/
inductive Player where
  | player
  | enemy
  | neutral
deriving DecidableEq, Repr

/-- The abstract game interface consumed by the search (`sttt::board::Board`):
the winner (if the board is done), the list of available moves (coordinates are
modelled by their `o()` index, a natural number), the play function, and the
side to move. -/
structure Game (B : Type) where
  wonBy : B → Option Player
  availableMoves : B → List ℕ
  play : B → ℕ → B
  nextPlayer : B → Player

/-- `Board::is_done`: the board is done exactly when `won_by` is set. -/
def Game.isDone {B : Type} (g : Game B) (b : B) : Bool :=
  (g.wonBy b).isSome

/-- The evaluation returned by the network for one board: a value and a policy
vector indexed by the move coordinate (`NetworkEvaluation` in `network/mod.rs`,
an external collaborator; `f32` entries modelled as `ℚ`). -/
structure NetworkEvaluation where
  value : ℚ
  policy : ℕ → ℚ

/-- The `f32` values that can arise in the search: finite values (exact, as
`ℚ`), the two infinities, and NaN. -/
inductive F32 where
  | ninf
  | val (q : ℚ)
  | inf
  | nan
deriving DecidableEq, Repr

namespace F32

/-- The total order `ordered_float::OrderedFloat` puts on `f32`:
`-inf < finite < inf < NaN`, and NaN is equal to itself. -/
def fle : F32 → F32 → Bool
  | _, nan => true
  | nan, _ => false
  | ninf, _ => true
  | _, ninf => false
  | val a, val b => a ≤ b
  | val _, inf => true
  | inf, val _ => false
  | inf, inf => true

/-- Adding a finite `f32` to an `F32` (used by `uct`: `q + exploration_weight * u`
where the second summand is always finite). -/
def addVal : F32 → ℚ → F32
  | val a, b => val (a + b)
  | nan, _ => nan
  | inf, _ => inf
  | ninf, _ => ninf

end F32

/-- IEEE division of a finite `f32` by a nonnegative integer count:
`w / 0` is NaN for `w = 0` and `±inf` otherwise; for a positive count the
quotient is exact. Models `total_value / visits as f32`. -/
def fdivNat (w : ℚ) (n : ℕ) : F32 :=
  if n = 0 then (if w = 0 then .nan else if 0 < w then .inf else .ninf)
  else .val (w / n)

/-- `IdxRange`: a contiguous index range into the node arena.  The source keeps
`start : NonZeroUsize` and `length : u8`; both are modelled as `ℕ` (the `u8`
cast is applied at the single place the source performs it). -/
structure IdxRange where
  start : ℕ
  length : ℕ
deriving DecidableEq, Repr

/-- `IdxRange::iter`: the indices `start, start+1, …, start+length-1`. -/
def IdxRange.iter (r : IdxRange) : List ℕ :=
  List.range' r.start r.length

/-- One node of the search tree (`struct Node` in `mcts_zero.rs`).
`children_start = 0` encodes the absent children range, exactly as the source
stores an optional `NonZeroUsize` in a plain `usize`. -/
structure Node where
  coord : ℕ
  children_start : ℕ
  children_length : ℕ
  evaluation : Option ℚ
  policy : ℚ
  visits : ℕ
  total_value : ℚ
deriving DecidableEq, Repr

/-- `Node::new`. -/
def Node.new (c : ℕ) (p : ℚ) : Node :=
  ⟨c, 0, 0, none, p, 0, 0⟩

/-- `Node::children`. -/
def Node.children (n : Node) : Option IdxRange :=
  if n.children_start = 0 then none
  else some ⟨n.children_start, n.children_length⟩

/-- `Node::set_children`. -/
def Node.set_children (n : Node) (r : IdxRange) : Node :=
  { n with children_start := r.start, children_length := r.length }

/-- The two backpropagation updates `node.visits += 1; node.total_value += value`. -/
def Node.bump (n : Node) (w : ℚ) : Node :=
  { n with visits := n.visits + 1, total_value := n.total_value + w }

/-- `Node::value`: `total_value / visits as f32` (NaN on an unvisited node). -/
def Node.value (n : Node) : F32 :=
  fdivNat n.total_value n.visits

/-- `Node::uct`.  `sq` is the (rounded) `f32` square root; the remaining
arithmetic is exact.  On an unvisited node `value()` is `0.0/0.0 = NaN` and the
whole expression is NaN. -/
def Node.uct (n : Node) (exploration_weight : ℚ) (parent_visits : ℕ) (sq : ℕ → ℚ) : F32 :=
  let u : ℚ := n.policy * sq parent_visits / (1 + (n.visits : ℚ))
  n.value.addVal (exploration_weight * u)

/-- Reading `tree.nodes[i]` where the index is known to be in bounds; out of
bounds reads are modelled explicitly as errors at the call sites. -/
def getNode (ns : List Node) (i : ℕ) : Node :=
  ns.getD i (Node.new 0 0)

/-- `Iterator::max_by_key` (fold step): the running maximum is replaced when the
new element's key is greater *or equal*, so among ties the last element wins.
`le a b` decides `key a ≤ key b`. -/
def maxByAux (le : ℕ → ℕ → Bool) : ℕ → List ℕ → ℕ
  | best, [] => best
  | best, x :: xs => maxByAux le (if le best x then x else best) xs

/-- `Iterator::max_by_key` on a list of indices: `none` on an empty list,
otherwise the last element attaining the maximal key. -/
def maxBy (le : ℕ → ℕ → Bool) : List ℕ → Option ℕ
  | [] => none
  | x :: xs => some (maxByAux le x xs)

/-- `struct Tree`: the root board together with the node arena (node 0 is the
root). -/
structure Tree (B : Type) where
  root_board : B
  nodes : List Node
deriving DecidableEq

/-- `Tree::best_move`: over the *reversed* children range of the root, take the
last maximum of the visit counts — i.e. the lowest-index child among the tied
maxima.  Panics (errors) when the root has no children. Indexing into the arena
is bounds checked like `Vec` indexing. -/
def Tree.best_move {B : Type} (t : Tree B) : Except String ℕ :=
  match (getNode t.nodes 0).children with
  | none => .error "Root node must have children"
  | some children =>
    if children.start + children.length ≤ t.nodes.length then
      match maxBy (fun a b => Nat.ble (getNode t.nodes a).visits (getNode t.nodes b).visits)
          children.iter.reverse with
      | none => .error "Root node must have non-empty children"
      | some best => .ok (getNode t.nodes best).coord
    else .error "index out of bounds"

/-! ## The tree-building loop of `mcts_zero_build_tree`

The body of `for _ in 0..iterations` is split into three parts mirroring the
source: the descent loop (`walk`, which never mutates the tree: the only
mutation in the source's loop happens in the branch that immediately breaks),
the expansion of the reached leaf (`expandAt`), and the backpropagation over
the reversed `parent_list` (`backprop`).  `walk` returns the `parent_list` in
reverse push order, which is exactly the order `parent_list.iter().rev()`
processes it. -/

section Search

variable {B : Type} (g : Game B) (net : B → NetworkEvaluation) (sq : ℕ → ℚ)
variable (exploration_weight : ℚ)

/-- Outcome of the descent loop: either the walked board is done (with the
terminal value `0` for a draw and `-1` otherwise), or an unexpanded node was
reached on a non-done board. -/
inductive WalkOut (B : Type) where
  | terminal (revPath : List ℕ) (v : ℚ)
  | leaf (revPath : List ℕ) (node : ℕ) (board : B)

/-- The descent loop of one iteration.  `revAcc` is `parent_list` in reverse
push order.  Fuel models the fact that the loop terminates only because
children always live at strictly larger indices than their parent; on a
malformed arena the source would loop or panic, both modelled as errors. -/
def walk : ℕ → List Node → ℕ → B → List ℕ → Except String (WalkOut B)
  | 0, _, _, _, _ => .error "non-termination"
  | fuel + 1, ns, curr, board, revAcc =>
    if curr < ns.length then
      let revAcc := curr :: revAcc
      match g.wonBy board with
      | some w => .ok (.terminal revAcc (if w = .neutral then 0 else -1))
      | none =>
        match (getNode ns curr).children with
        | none => .ok (.leaf revAcc curr board)
        | some children =>
          if children.start + children.length ≤ ns.length then
            let pv := (getNode ns curr).visits
            match maxBy (fun a b =>
                F32.fle ((getNode ns a).uct exploration_weight pv sq)
                  ((getNode ns b).uct exploration_weight pv sq)) children.iter with
            | none => .error "Board is not done, this node should have a child"
            | some sel => walk fuel ns sel (g.play board (getNode ns sel).coord) revAcc
          else .error "index out of bounds"
    else .error "index out of bounds"

/-- Expansion of the unexpanded node `n` whose (non-done) board is `board`:
evaluate the network, append one fresh node per available move carrying its
prior, and register the children range on `n` (the length goes through the
source's `u8` cast).  Returns the new arena and the network value that the
source breaks out of the loop with. -/
def expandAt (ns : List Node) (n : ℕ) (board : B) : Except String (List Node × ℚ) :=
  if n < ns.length then
    let ev := net board
    let start := ns.length
    let ns' := ns ++ (g.availableMoves board).map (fun c => Node.new c (ev.policy c))
    let length := (ns'.length - start) % 256
    if length = 0 then .error "assertion failed: length > 0"
    else if start = 0 then .error "NonZeroUsize must be non-zero"
    else
      .ok (ns'.set n { (getNode ns n).set_children ⟨start, length⟩ with
                        evaluation := some ev.value }, ev.value)
  else .error "index out of bounds"

/-- `for &update_node in parent_list.iter().rev() { value = -value; … }`:
process the reversed path, negating the value before every update, and add the
negated value while bumping the visit count. -/
def backprop : List Node → List ℕ → ℚ → Except String (List Node)
  | ns, [], _ => .ok ns
  | ns, p :: rest, v =>
    if p < ns.length then
      let v' := -v
      backprop (ns.set p ((getNode ns p).bump v')) rest v'
    else .error "index out of bounds"

/-- One iteration of the `for _ in 0..iterations` loop. -/
def mctsIter (board : B) (ns : List Node) : Except String (List Node) :=
  match walk g sq exploration_weight (ns.length + 1) ns 0 board [] with
  | .error e => .error e
  | .ok (.terminal revPath v) => backprop ns revPath v
  | .ok (.leaf revPath n bd) =>
    match expandAt g net ns n bd with
    | .error e => .error e
    | .ok (ns', v) => backprop ns' revPath v

/-- The whole `for` loop, `k` iterations. -/
def runIters (board : B) : ℕ → List Node → Except String (List Node)
  | 0, ns => .ok ns
  | k + 1, ns =>
    match mctsIter g net sq exploration_weight board ns with
    | .error e => .error e
    | .ok ns' => runIters board k ns'

/-- `mcts_zero_build_tree`: check the two preconditions (in source order), seed
the arena with the root node (`coord 0`, prior `1.0`), run the iterations, and
check the source's final `assert_eq!(iterations, tree[0].visits)`. -/
def mcts_zero_build_tree (board : B) (iterations : ℕ) : Except String (Tree B) :=
  if iterations = 0 then .error "MCTS must run for at least 1 iteration"
  else if g.isDone board then .error "Cannot build MCTS tree for done board"
  else
    match runIters g net sq exploration_weight board iterations [Node.new 0 1] with
    | .error e => .error e
    | .ok ns =>
      if (getNode ns 0).visits = iterations then .ok ⟨board, ns⟩
      else .error "implementation error"

/-- `<MCTSZeroBot as Bot>::play`: `None` on a done board, otherwise the best
move of the tree built with the bot's configured iteration count. -/
def MCTSZeroBot.play (iterations : ℕ) (board : B) : Except String (Option ℕ) :=
  if g.isDone board then .ok none
  else
    match mcts_zero_build_tree g net sq exploration_weight board iterations with
    | .error e => .error e
    | .ok tree =>
      match tree.best_move with
      | .error e => .error e
      | .ok m => .ok (some m)

end Search

/-! ## The move selector (`rust/src/selfplay/mod.rs`) -/

/-- `MoveSelector`: the single configuration field `inf_temp_move_count`. -/
structure MoveSelector where
  inf_temp_move_count : ℕ

/-- `itertools::Itertools::position_max` on a list of (finite) `f32` entries:
the position of the maximal entry; among equal maxima the position of the
*last* of them; `none` on an empty list.  `bi, bv` are the best position and
value so far, `i` the position of the list head. -/
def positionMaxAux : ℕ → ℚ → ℕ → List ℚ → ℕ
  | bi, _, _, [] => bi
  | bi, bv, i, x :: xs =>
    if bv ≤ x then positionMaxAux i x (i + 1) xs else positionMaxAux bi bv (i + 1) xs

/-- `position_max` (see `positionMaxAux`). -/
def position_max (xs : List ℚ) : Option ℕ :=
  match xs with
  | [] => none
  | x :: rest => some (positionMaxAux 0 x 1 rest)

/-- `rand::distributions::WeightedIndex::new`: errors on an empty list, on any
negative weight, and on a zero total; otherwise the distribution just keeps the
weights (the cumulative sums are recomputed by `weightedIndexSample`). -/
def weightedIndexNew (ws : List ℚ) : Except String (List ℚ) :=
  if ws = [] then .error "no item"
  else if ws.any (fun w => w < 0) then .error "invalid weight"
  else if ws.sum ≤ 0 then .error "all weights zero"
  else .ok ws

/-- `WeightedIndex::sample` given the uniform draw `x ∈ [0, total)`: the first
index whose cumulative weight exceeds `x`. -/
def weightedIndexSample : List ℚ → ℚ → ℕ
  | [], _ => 0
  | w :: rest, x => if x < w then 0 else weightedIndexSample rest (x - w) + 1

/-- `MoveSelector::select`.  The randomness consumed by `sample` is abstracted
into the draw `x` (a uniform value in `[0, total weight)`); `unwrap` panics are
errors. -/
def MoveSelector.select (s : MoveSelector) (move_count : ℕ) (policy : List ℚ) (x : ℚ) :
    Except String ℕ :=
  if s.inf_temp_move_count < move_count then
    match position_max policy with
    | none => .error "position_max of empty iterator"
    | some i => .ok i
  else
    match weightedIndexNew policy with
    | .error e => .error e
    | .ok _ => .ok (weightedIndexSample policy x)

/-- Modelled from the spec: the claimed selection rule — the index of the
maximal policy entry with ties broken by the *lowest* index (the position of
the first maximum). -/
def positionMaxFirstSpec (xs : List ℚ) : Option ℕ :=
  match xs with
  | [] => none
  | x :: _ => xs.findIdx? (fun y => decide (y = xs.foldl max x))

/-- Modelled from the spec: `U(child) = Q(child) + c_puct · P(child) · sqrt(Np)
/ (1 + N(child))` with `Q = W/N` for `N > 0` and `Q = 0` for `N = 0`, always a
finite value. -/
def Node.uctSpec (n : Node) (c_puct : ℚ) (parent_visits : ℕ) (sq : ℕ → ℚ) : ℚ :=
  (if n.visits = 0 then 0 else n.total_value / (n.visits : ℚ)) +
    c_puct * n.policy * sq parent_visits / (1 + (n.visits : ℚ))

/-! ## A concrete one-move game used as executable witness

Board `0` is the only non-done board; its single legal move (coordinate `5`)
leads to board `1`, which is won by the player who just moved — a terminal
loss for the side to move at board `1`. -/

/-- The one-move game. -/
def tinyGame : Game ℕ where
  wonBy b := if b = 0 then none else some .player
  availableMoves b := if b = 0 then [5] else []
  play _ _ := 1
  nextPlayer b := if b = 0 then .player else .enemy

/-- A network for the tiny game: value `0`, uniform prior `1`. -/
def tinyNet : ℕ → NetworkEvaluation := fun _ => ⟨0, fun _ => 1⟩

/-- Decidable equality of results, used only to evaluate the model on concrete
inputs. -/
instance {e a : Type} [DecidableEq e] [DecidableEq a] : DecidableEq (Except e a) := fun
  | .error x, .error y =>
    if h : x = y then .isTrue (by rw [h])
    else .isFalse (by intro hc; cases hc; exact h rfl)
  | .error _, .ok _ => .isFalse (by intro hc; cases hc)
  | .ok _, .error _ => .isFalse (by intro hc; cases hc)
  | .ok x, .ok y =>
    if h : x = y then .isTrue (by rw [h])
    else .isFalse (by intro hc; cases hc; exact h rfl)

/-! ## Derived notions used to state and prove the tree invariants -/

/-- The game contract the search relies on: a non-done board always has at
least one available move (sttt boards have between 1 and 81), and at most 255
so that the source's `u8` length cast is lossless. -/
def GameWF {B : Type} (g : Game B) : Prop :=
  ∀ b, g.wonBy b = none → g.availableMoves b ≠ [] ∧ (g.availableMoves b).length ≤ 255

/-- Does the (registered) children range of node `i` contain index `j`? -/
def inChildren (ns : List Node) (i j : ℕ) : Bool :=
  match (getNode ns i).children with
  | none => false
  | some r => decide (r.start ≤ j) && decide (j < r.start + r.length)

/-- The parent of node `j`: the first arena index whose children range contains
`j` (unique as soon as the ranges are disjoint). -/
def parentIdx (ns : List Node) (j : ℕ) : Option ℕ :=
  (List.range ns.length).find? (fun i => inChildren ns i j)

/-- The board a node stands for, reconstructed by replaying the coordinates on
the path from the root (fuelled so that the definition is structurally
recursive; `j + 1` fuel always suffices because parents have smaller index). -/
def boardOfFuel {B : Type} (g : Game B) (b0 : B) (ns : List Node) :
    ℕ → ℕ → Option B
  | 0, _ => none
  | fuel + 1, j =>
    if j = 0 then some b0
    else
      match parentIdx ns j with
      | none => none
      | some i =>
        if i < j then (boardOfFuel g b0 ns fuel i).map (fun b => g.play b (getNode ns j).coord)
        else none

/-- The board of node `j` (root board `b0`). -/
def boardOf {B : Type} (g : Game B) (b0 : B) (ns : List Node) (j : ℕ) : Option B :=
  boardOfFuel g b0 ns (j + 1) j

/-- Sum of the visit counts over a children range. -/
def childrenVisitSum (ns : List Node) (r : IdxRange) : ℕ :=
  (r.iter.map (fun j => (getNode ns j).visits)).sum

/-- A reversed root path: the head is the deepest node, the last element is the
root, and each element lies in the children range of its successor (which in
particular has strictly smaller index and is in bounds). -/
def RevPathOk (ns : List Node) : List ℕ → Prop
  | [] => True
  | [c] => c = 0
  | c :: p :: rest =>
    c < ns.length ∧ p < c ∧
      (∃ r, (getNode ns p).children = some r ∧ c ∈ r.iter) ∧
      RevPathOk ns (p :: rest)

/-- What the descent loop guarantees about its outcome: the reversed
`parent_list` is a reversed root path, and the head node is terminal (with the
value determined by the winner) or an unexpanded node on a non-done board. -/
def WalkOutOk {B : Type} (g : Game B) (b0 : B) (ns : List Node) : WalkOut B → Prop
  | .terminal rp v =>
      rp ≠ [] ∧ RevPathOk ns rp ∧
      ∃ bd w, boardOf g b0 ns (rp.headD 0) = some bd ∧ g.wonBy bd = some w ∧
        v = (if w = Player.neutral then 0 else -1)
  | .leaf rp n bd =>
      rp ≠ [] ∧ RevPathOk ns rp ∧ rp.headD 0 = n ∧
      boardOf g b0 ns n = some bd ∧ g.wonBy bd = none ∧
      (getNode ns n).children = none

/-- The inductive invariant of the arena after `k` completed iterations of
`mcts_zero_build_tree` on the non-done root board `b0`. -/
structure TreeInv {B : Type} (g : Game B) (net : B → NetworkEvaluation) (b0 : B)
    (ns : List Node) (k : ℕ) : Prop where
  len_pos : 0 < ns.length
  root_visits : (getNode ns 0).visits = k
  root_expanded : 0 < k → (getNode ns 0).children.isSome
  ranges : ∀ i r, i < ns.length → (getNode ns i).children = some r →
    i < r.start ∧ r.start + r.length ≤ ns.length ∧ 0 < r.length
  disjoint : ∀ i j r r', i < ns.length → j < ns.length → i ≠ j →
    (getNode ns i).children = some r → (getNode ns j).children = some r' →
    ∀ c, c ∈ r.iter → c ∉ r'.iter
  boards : ∀ i r, i < ns.length → (getNode ns i).children = some r →
    ∃ bd, boardOf g b0 ns i = some bd ∧ g.wonBy bd = none
  visit_sum : ∀ i r, i < ns.length → (getNode ns i).children = some r →
    (getNode ns i).visits = 1 + childrenVisitSum ns r
  unvisited : ∀ i, i < ns.length → (getNode ns i).children = none →
    (∀ bd, boardOf g b0 ns i = some bd → g.wonBy bd = none) →
    (getNode ns i).visits = 0
  terminal_value : ∀ i bd p, i < ns.length → boardOf g b0 ns i = some bd →
    g.wonBy bd = some p → p ≠ Player.neutral →
    (getNode ns i).total_value = ((getNode ns i).visits : ℚ)
  bounded : (∀ b, |(net b).value| ≤ 1) → ∀ i, i < ns.length →
    |(getNode ns i).total_value| ≤ ((getNode ns i).visits : ℚ)

/-! ## The older playout-based search (`src/mcts/mod.rs`)

This embedding is used for the claim comparing the batched (`batch_eval =
true`) and unbatched drivers of `mcts_evaluate`.  Loops over parent chains and
playouts are fuelled; fuel exhaustion (an infinite loop in the source) is an
error. -/

/-- The addition of two `f32` values. -/
def F32.add : F32 → F32 → F32
  | .nan, _ => .nan
  | _, .nan => .nan
  | .inf, .ninf => .nan
  | .ninf, .inf => .nan
  | .inf, _ => .inf
  | _, .inf => .inf
  | .ninf, _ => .ninf
  | _, .ninf => .ninf
  | .val a, .val b => .val (a + b)

/-- A deterministic model of `rand::Rng`: a stream of naturals (an exhausted
stream keeps yielding 0).  `gen_range(0, n)` consumes one value and reduces it
modulo `n`; `gen::<bool>()` consumes one value and takes its parity.  Two runs
with the same stream model two runs with the same seed. -/
structure Rng where
  stream : List ℕ
deriving DecidableEq, Repr

/-- Pull the next raw value off the stream. -/
def Rng.next (r : Rng) : ℕ × Rng :=
  match r.stream with
  | [] => (0, ⟨[]⟩)
  | x :: xs => (x, ⟨xs⟩)

/-- `rand.gen_range(0, n)` (callers guarantee `n > 0`). -/
def Rng.genRange0 (r : Rng) (n : ℕ) : ℕ × Rng :=
  let vr := r.next
  (vr.1 % n, vr.2)

/-- `rand.gen::<bool>()`. -/
def Rng.genBool (r : Rng) : Bool × Rng :=
  let vr := r.next
  (vr.1 % 2 == 1, vr.2)

/-- `Board::random_available_move`: `None` on a done board, otherwise the
`gen_range(0, count)`-th available move in iteration order. -/
def random_available_move {B : Type} (g : Game B) (b : B) (rng : Rng) :
    Option ℕ × Rng :=
  if g.isDone b then (none, rng)
  else
    let moves := g.availableMoves b
    let ir := rng.genRange0 moves.length
    (moves.get? ir.1, ir.2)

/-- How the playout winner turns into the `won` flag: a draw is decided by a
coin flip, otherwise compare with the player to move at the playout start. -/
def wonFrom (won_by curr_player : Player) (rng : Rng) : Bool × Rng :=
  if won_by ≠ Player.neutral then (decide (won_by = curr_player), rng)
  else rng.genBool

namespace Sttt

/-- `IdxRange` of `src/mcts/mod.rs`: a half-open range (the source's `end`
field is spelled `stop`). -/
structure IdxRange where
  start : ℕ
  stop : ℕ
deriving DecidableEq, Repr

/-- `IdxRange::iter`: `start..end`. -/
def IdxRange.iter (r : IdxRange) : List ℕ :=
  List.range' r.start (r.stop - r.start)

/-- `struct Node` of `src/mcts/mod.rs`. -/
structure Node where
  coord : ℕ
  parent : Option ℕ
  children : Option IdxRange
  visits : ℕ
  wins : ℕ
  needs_eval : Bool
deriving DecidableEq, Repr

/-- `Node::new`. -/
def Node.new (c : ℕ) (parent : Option ℕ) : Node :=
  ⟨c, parent, none, 0, 0, false⟩

/-- Bounds-checked-at-call-sites read of `tree[i]`. -/
def getNodeM (ns : List Node) (i : ℕ) : Node :=
  ns.getD i (Node.new 0 none)

/-- `Node::uct`: `wins/visits + sqrt(2 ln Np / visits) + heuristic/(visits+1)`.
The middle exploration term is a function of `(Np, visits)` only; its rounded
`f32` value (infinite or NaN for `visits = 0`) is the parameter `exf`. -/
def Node.uct (n : Node) (parent_visits : ℕ) (heuristic : ℚ) (exf : ℕ → ℕ → F32) : F32 :=
  ((fdivNat (n.wins : ℚ) n.visits).add (exf parent_visits n.visits)).add
    (.val (heuristic / ((n.visits : ℚ) + 1)))

/-- The `while !curr_board.is_done()` descent loop of `mcts_evaluate`:
expansion of an unexpanded node, then either a uniformly random unexplored
child (breaking out of the loop) or the uct-maximal child (continuing). -/
def walkM {B : Type} (g : Game B) (h : B → ℚ) (exf : ℕ → ℕ → F32) :
    ℕ → List Node → ℕ → B → Rng → Except String (List Node × ℕ × B × Rng)
  | 0, _, _, _, _ => .error "non-termination"
  | fuel + 1, tree, curr, board, rng =>
    if g.isDone board then .ok (tree, curr, board, rng)
    else if curr < tree.length then
      let tc : List Node × IdxRange :=
        match (getNodeM tree curr).children with
        | some c => (tree, c)
        | none =>
          let start := tree.length
          let tree1 := tree ++ (g.availableMoves board).map (fun m => Node.new m (some curr))
          let c : IdxRange := ⟨start, tree1.length⟩
          (tree1.set curr { getNodeM tree1 curr with children := some c }, c)
      let tree := tc.1
      let children := tc.2
      if children.stop ≤ tree.length then
        let unexplored := children.iter.filter (fun c => (getNodeM tree c).visits == 0)
        if unexplored.length ≠ 0 then
          let ir := rng.genRange0 unexplored.length
          match unexplored.get? ir.1 with
          | none => .error "we specifically selected the index based on the count already"
          | some child => .ok (tree, child, g.play board (getNodeM tree child).coord, ir.2)
        else
          let pv := (getNodeM tree curr).visits
          match maxBy (fun a b =>
              F32.fle ((getNodeM tree a).uct pv (h board) exf)
                ((getNodeM tree b).uct pv (h board) exf)) children.iter with
          | none => .error "Board is not done, this node should have a child"
          | some sel => walkM g h exf fuel tree sel (g.play board (getNodeM tree sel).coord) rng
      else .error "index out of bounds"
    else .error "index out of bounds"

/-- Random playout until the board is decided. -/
def playout {B : Type} (g : Game B) : ℕ → B → Rng → Except String (Player × Rng)
  | 0, _, _ => .error "non-termination"
  | fuel + 1, board, rng =>
    match g.wonBy board with
    | some w => .ok (w, rng)
    | none =>
      match random_available_move g board rng with
      | (some m, rng') => playout g fuel (g.play board m) rng'
      | (none, _) => .error "No winner, so board is not done yet"

/-- The unbatched update loop: negate `won`, bump `visits` (and `wins` when
won), follow the parent pointer to the root. -/
def updateChain : ℕ → List Node → ℕ → Bool → Except String (List Node)
  | 0, _, _, _ => .error "non-termination"
  | fuel + 1, tree, curr, won =>
    let won := !won
    if curr < tree.length then
      let nd := getNodeM tree curr
      let tree := tree.set curr
        { nd with visits := nd.visits + 1, wins := nd.wins + (if won then 1 else 0) }
      match nd.parent with
      | some p => updateChain fuel tree p won
      | none => .ok tree
    else .error "index out of bounds"

/-- The batched queueing loop: only `visits` is bumped; `wins` comes later in
the batch. -/
def visitChain : ℕ → List Node → ℕ → Except String (List Node)
  | 0, _, _ => .error "non-termination"
  | fuel + 1, tree, curr =>
    if curr < tree.length then
      let nd := getNodeM tree curr
      let tree := tree.set curr { nd with visits := nd.visits + 1 }
      match nd.parent with
      | some p => visitChain fuel tree p
      | none => .ok tree
    else .error "index out of bounds"

/-- The update loop of `do_batch_evals`: negate `won`, bump `wins` only. -/
def winChain : ℕ → List Node → ℕ → Bool → Except String (List Node)
  | 0, _, _, _ => .error "non-termination"
  | fuel + 1, tree, curr, won =>
    let won := !won
    if curr < tree.length then
      let nd := getNodeM tree curr
      let tree := tree.set curr { nd with wins := nd.wins + (if won then 1 else 0) }
      match nd.parent with
      | some p => winChain fuel tree p won
      | none => .ok tree
    else .error "index out of bounds"

/-- `do_batch_evals`: drain the queue in push order; for each entry run a
playout from the stored board and back up the wins along the parent chain. -/
def do_batch_evals {B : Type} (g : Game B) (fuelP : ℕ) :
    List Node → List (ℕ × B) → Rng → Except String (List Node × Rng)
  | tree, [], rng => .ok (tree, rng)
  | tree, (curr, board) :: rest, rng =>
    let curr_player := g.nextPlayer board
    match playout g fuelP board rng with
    | .error e => .error e
    | .ok (won_by, rng1) =>
      let wr := wonFrom won_by curr_player rng1
      let tree1 := tree.set curr { getNodeM tree curr with needs_eval := false }
      match winChain (tree1.length + 1) tree1 curr wr.1 with
      | .error e => .error e
      | .ok tree2 => do_batch_evals g fuelP tree2 rest wr.2

/-- One iteration of the `for _ in 0..iterations` loop of `mcts_evaluate`:
walk, then simulate (batched: queue or flush on a collision; unbatched:
playout and full backprop), then the queue-size-100 flush check. -/
def iterM {B : Type} (g : Game B) (h : B → ℚ) (exf : ℕ → ℕ → F32) (fuelP : ℕ)
    (board : B) (batch_eval : Bool)
    (s : List Node × List (ℕ × B) × Rng) :
    Except String (List Node × List (ℕ × B) × Rng) :=
  match walkM g h exf (s.1.length + 2) s.1 0 board s.2.2 with
  | .error e => .error e
  | .ok (tree1, curr, cboard, rng1) =>
    if batch_eval then
      match
        (if (getNodeM tree1 curr).needs_eval then
          match do_batch_evals g fuelP tree1 s.2.1 rng1 with
          | .error e => .error e
          | .ok (tree2, rng2) => .ok (tree2, ([] : List (ℕ × B)), rng2)
        else
          let tree2 := tree1.set curr { getNodeM tree1 curr with needs_eval := true }
          let queue2 := s.2.1 ++ [(curr, cboard)]
          match visitChain (tree2.length + 1) tree2 curr with
          | .error e => .error e
          | .ok tree3 => .ok (tree3, queue2, rng1) :
          Except String (List Node × List (ℕ × B) × Rng)) with
      | .error e => .error e
      | .ok (tree4, queue4, rng4) =>
        if 100 ≤ queue4.length then
          match do_batch_evals g fuelP tree4 queue4 rng4 with
          | .error e => .error e
          | .ok (tree5, rng5) => .ok (tree5, [], rng5)
        else .ok (tree4, queue4, rng4)
    else
      let curr_player := g.nextPlayer cboard
      match playout g fuelP cboard rng1 with
      | .error e => .error e
      | .ok (won_by, rng2) =>
        let wr := wonFrom won_by curr_player rng2
        match updateChain (tree1.length + 1) tree1 curr wr.1 with
        | .error e => .error e
        | .ok tree2 => .ok (tree2, s.2.1, wr.2)

/-- The whole `for` loop. -/
def runItersM {B : Type} (g : Game B) (h : B → ℚ) (exf : ℕ → ℕ → F32)
    (fuelP : ℕ) (board : B) (batch_eval : Bool) :
    ℕ → List Node × List (ℕ × B) × Rng →
    Except String (List Node × List (ℕ × B) × Rng)
  | 0, s => .ok s
  | k + 1, s =>
    match iterM g h exf fuelP board batch_eval s with
    | .error e => .error e
    | .ok s' => runItersM g h exf fuelP board batch_eval k s'

/-- `struct Evaluation` of `src/mcts/mod.rs`. -/
structure Evaluation where
  best_move : Option ℕ
  value : F32
deriving DecidableEq, Repr

/-- `mcts_evaluate`: run the iterations, flush the remaining queue in batched
mode, and read the best move (highest visits, reversed iteration so ties go to
the lowest index; `None` when the root has no children uses a random move) and
the root value `wins/visits`.  The tree is returned alongside the source's
`Evaluation` so that claims about the node statistics can be stated. -/
def mcts_evaluate {B : Type} (g : Game B) (h : B → ℚ) (exf : ℕ → ℕ → F32)
    (fuelP : ℕ) (board : B) (iterations : ℕ) (batch_eval : Bool) (rng : Rng) :
    Except String (List Node × Evaluation × Rng) :=
  match runItersM g h exf fuelP board batch_eval iterations
      ([Node.new 0 none], [], rng) with
  | .error e => .error e
  | .ok (tree1, queue, rng1) =>
    match (if batch_eval then do_batch_evals g fuelP tree1 queue rng1
           else .ok (tree1, rng1)) with
    | .error e => .error e
    | .ok (tree2, rng2) =>
      let value := fdivNat ((getNodeM tree2 0).wins : ℚ) (getNodeM tree2 0).visits
      match (getNodeM tree2 0).children with
      | none =>
        let mr := random_available_move g board rng2
        .ok (tree2, ⟨mr.1, value⟩, mr.2)
      | some children =>
        if children.stop ≤ tree2.length then
          match maxBy (fun a b =>
              Nat.ble (getNodeM tree2 a).visits (getNodeM tree2 b).visits)
              children.iter.reverse with
          | none => .ok (tree2, ⟨none, value⟩, rng2)
          | some bm => .ok (tree2, ⟨some (getNodeM tree2 bm).coord, value⟩, rng2)
        else .error "index out of bounds"

end Sttt

/-! ## Theorems -/

/-! ### Facts about the `max_by_key` fold -/

theorem ble_ff {a b : ℕ} (h : ¬ a ≤ b) : Nat.ble a b = false := by
  rw [← Bool.not_eq_true, Nat.ble_eq]
  exact h

theorem maxByAux_mem (le : ℕ → ℕ → Bool) (xs : List ℕ) :
    ∀ b, maxByAux le b xs ∈ b :: xs := by
  induction xs with
  | nil => intro b; simp [maxByAux]
  | cons x xs ih =>
    intro b
    rw [maxByAux]
    rcases List.mem_cons.mp (ih (if le b x then x else b)) with h | h
    · by_cases hle : le b x <;> simp [hle] at h <;> simp [hle, h]
    · simp [List.mem_cons, h]

theorem maxBy_mem (le : ℕ → ℕ → Bool) (xs : List ℕ) (m : ℕ)
    (h : maxBy le xs = some m) : m ∈ xs := by
  cases xs with
  | nil => simp [maxBy] at h
  | cons x xs =>
    rw [maxBy] at h
    cases h
    exact maxByAux_mem le xs x

theorem maxByAux_le (f : ℕ → ℕ) (xs : List ℕ) :
    ∀ b, ∀ y ∈ b :: xs,
      f y ≤ f (maxByAux (fun a c => Nat.ble (f a) (f c)) b xs) := by
  induction xs with
  | nil => intro b y hy; simp at hy; subst hy; simp [maxByAux]
  | cons x xs ih =>
    intro b y hy
    rw [maxByAux]
    rcases List.mem_cons.mp hy with rfl | hy
    · by_cases hle : f y ≤ f x
      · have : Nat.ble (f y) (f x) = true := Nat.ble_eq.mpr hle
        simp only [this, if_true]
        exact le_trans hle (ih x x (List.mem_cons_self _ _))
      · have : Nat.ble (f y) (f x) = false := ble_ff hle
        simp only [this, Bool.false_eq_true, if_false]
        exact ih y y (List.mem_cons_self _ _)
    · rcases List.mem_cons.mp hy with rfl | hy
      · by_cases hle : f b ≤ f y
        · have : Nat.ble (f b) (f y) = true := Nat.ble_eq.mpr hle
          simp only [this, if_true]
          exact ih y y (List.mem_cons_self _ _)
        · have hlt : f y < f b := lt_of_not_le hle
          have : Nat.ble (f b) (f y) = false := ble_ff hle
          simp only [this, Bool.false_eq_true, if_false]
          exact le_trans (le_of_lt hlt) (ih b b (List.mem_cons_self _ _))
      · by_cases hle : f b ≤ f x
        · have : Nat.ble (f b) (f x) = true := Nat.ble_eq.mpr hle
          simp only [this, if_true]
          exact ih x y (List.mem_cons_of_mem _ hy)
        · have : Nat.ble (f b) (f x) = false := ble_ff hle
          simp only [this, Bool.false_eq_true, if_false]
          exact ih b y (List.mem_cons_of_mem _ hy)

/-- On a strictly decreasing list of indices the `max_by_key` fold (last
maximum wins) lands on the *smallest* index among the tied maxima. -/
theorem maxByAux_tie (f : ℕ → ℕ) (xs : List ℕ) :
    ∀ b, (b :: xs).Pairwise (· > ·) →
      ∀ y ∈ b :: xs,
        f y = f (maxByAux (fun a c => Nat.ble (f a) (f c)) b xs) →
        maxByAux (fun a c => Nat.ble (f a) (f c)) b xs ≤ y := by
  induction xs with
  | nil => intro b _ y hy _; simp at hy; subst hy; simp [maxByAux]
  | cons x xs ih =>
    intro b hp y hy heq
    rw [maxByAux] at heq ⊢
    have hp' : (x :: xs).Pairwise (· > ·) := hp.tail
    have hbgt : ∀ z ∈ x :: xs, b > z := by
      intro z hz
      exact List.rel_of_pairwise_cons hp hz
    by_cases hle : f b ≤ f x
    · have hb : Nat.ble (f b) (f x) = true := Nat.ble_eq.mpr hle
      simp only [hb, if_true] at heq ⊢
      rcases List.mem_cons.mp hy with rfl | hy'
      · have hmem := maxByAux_mem (fun a c => Nat.ble (f a) (f c)) xs x
        have : maxByAux (fun a c => Nat.ble (f a) (f c)) x xs < y :=
          hbgt _ hmem
        exact le_of_lt this
      · exact ih x hp' y hy' heq
    · have hb : Nat.ble (f b) (f x) = false := ble_ff hle
      have hlt : f x < f b := lt_of_not_le hle
      simp only [hb, Bool.false_eq_true, if_false] at heq ⊢
      rcases List.mem_cons.mp hy with rfl | hy'
      · exact ih y (by
          refine List.Pairwise.cons ?_ hp'.tail
          intro z hz
          exact lt_trans (List.rel_of_pairwise_cons hp' hz) (hbgt x (List.mem_cons_self _ _))) y
          (List.mem_cons_self _ _) heq
    -- remaining: y ∈ x :: xs
      · rcases List.mem_cons.mp hy' with rfl | hy''
        · exfalso
          have hble := maxByAux_le f xs b b (List.mem_cons_self _ _)
          rw [heq] at hlt
          exact absurd (le_trans hble (le_of_eq rfl)) (by
            intro hcontra
            exact absurd (lt_of_lt_of_le hlt hcontra) (lt_irrefl _))
        · exact ih b (List.Pairwise.cons (fun z hz => hbgt z (List.mem_cons_of_mem _ hz)) hp'.tail)
            y (List.mem_cons_of_mem _ hy'') heq

/-! ### Claim C6: `Tree::best_move` -/

/-- C6 (confirmed): for every tree whose root has a (bounds-respecting)
non-empty children range, `best_move` returns the move of a root child `j`
whose visit count is maximal, and every tied child has index at least `j` —
i.e. ties are broken by the lowest arena index. -/
theorem claim_C6_best_move {B : Type} (t : Tree B) (r : IdxRange)
    (h1 : (getNode t.nodes 0).children = some r) (h2 : 0 < r.length)
    (h3 : r.start + r.length ≤ t.nodes.length) :
    ∃ j ∈ r.iter,
      t.best_move = .ok ((getNode t.nodes j).coord) ∧
      (∀ k ∈ r.iter, (getNode t.nodes k).visits ≤ (getNode t.nodes j).visits) ∧
      (∀ k ∈ r.iter, (getNode t.nodes k).visits = (getNode t.nodes j).visits → j ≤ k) := by
  have hne : r.iter.reverse ≠ [] := by
    simp [IdxRange.iter]
    omega
  obtain ⟨x, xs, hxs⟩ := List.exists_cons_of_ne_nil hne
  set f : ℕ → ℕ := fun i => (getNode t.nodes i).visits with hf
  set j := maxByAux (fun a b => Nat.ble (f a) (f b)) x xs with hj
  have hpair : (x :: xs).Pairwise (· > ·) := by
    rw [← hxs, List.pairwise_reverse]
    exact List.pairwise_lt_range' _ _
  have hjmem : j ∈ r.iter := by
    have := maxByAux_mem (fun a b => Nat.ble (f a) (f b)) xs x
    rw [← hj, ← hxs] at this
    exact (List.mem_reverse).mp (hxs ▸ this)
  refine ⟨j, hjmem, ?_, ?_, ?_⟩
  · rw [Tree.best_move.eq_def, h1]
    simp only
    rw [if_pos h3, hxs]
    simp only [maxBy]
  · intro k hk
    have hk' : k ∈ x :: xs := by
      rw [← hxs]
      exact List.mem_reverse.mpr hk
    exact maxByAux_le f xs x k hk'
  · intro k hk hk2
    have hk' : k ∈ x :: xs := by
      rw [← hxs]
      exact List.mem_reverse.mpr hk
    exact maxByAux_tie f xs x hpair k hk' hk2

/-- C6 witness: a concrete tree whose two root children tie at 3 visits;
`best_move` returns the move of the lower-index child (node 1, coordinate 7). -/
theorem claim_C6_best_move_witness :
    ∃ j ∈ (⟨1, 2⟩ : IdxRange).iter,
      (Tree.mk 0 [⟨0, 1, 2, none, 1, 7, 0⟩, ⟨7, 0, 0, none, 1, 3, 0⟩,
        ⟨9, 0, 0, none, 1, 3, 0⟩] : Tree ℕ).best_move =
        .ok ((getNode [⟨0, 1, 2, none, 1, 7, 0⟩, ⟨7, 0, 0, none, 1, 3, 0⟩,
          ⟨9, 0, 0, none, 1, 3, 0⟩] j).coord) ∧
      (∀ k ∈ (⟨1, 2⟩ : IdxRange).iter,
        (getNode [⟨0, 1, 2, none, 1, 7, 0⟩, ⟨7, 0, 0, none, 1, 3, 0⟩,
          ⟨9, 0, 0, none, 1, 3, 0⟩] k).visits ≤
        (getNode [⟨0, 1, 2, none, 1, 7, 0⟩, ⟨7, 0, 0, none, 1, 3, 0⟩,
          ⟨9, 0, 0, none, 1, 3, 0⟩] j).visits) ∧
      (∀ k ∈ (⟨1, 2⟩ : IdxRange).iter,
        (getNode [⟨0, 1, 2, none, 1, 7, 0⟩, ⟨7, 0, 0, none, 1, 3, 0⟩,
          ⟨9, 0, 0, none, 1, 3, 0⟩] k).visits =
        (getNode [⟨0, 1, 2, none, 1, 7, 0⟩, ⟨7, 0, 0, none, 1, 3, 0⟩,
          ⟨9, 0, 0, none, 1, 3, 0⟩] j).visits → j ≤ k) :=
  claim_C6_best_move _ ⟨1, 2⟩ (by decide) (by decide) (by decide)

/-! ### Claim C3: `Node::uct` -/

/-- C3 counterexample: on an unvisited node (`Node::new`, `N = 0`, `W = 0`)
the code computes `0.0 / 0.0 = NaN`, not the claimed
`c_puct · P · sqrt(Np)` (which here is `1 · 1 · 2 = 2`). -/
theorem claim_C3_uct_counterexample :
    (Node.new 5 1).uct 1 4 (fun _ => 2) = F32.nan ∧
    (Node.new 5 1).uctSpec 1 4 (fun _ => 2) = 2 ∧
    (Node.new 5 1).uct 1 4 (fun _ => 2) ≠
      F32.val ((Node.new 5 1).uctSpec 1 4 (fun _ => 2)) := by
  refine ⟨rfl, ?_, ?_⟩
  · norm_num [Node.uctSpec, Node.new]
  · intro h
    simp [Node.uct, Node.new, Node.value, fdivNat, F32.addVal] at h

/-- C3 (corrected): for a visited node (`N > 0`) `Node::uct` returns exactly
the claimed finite value `Q + c_puct · P · sqrt(Np) / (1 + N)` with
`Q = W / N`; but for an unvisited node with `W = 0` the division `0.0 / 0.0`
yields NaN (which the `OrderedFloat` order used by selection treats as
maximal), not the claimed `Q = 0`. -/
theorem claim_C3_uct (n : Node) (c : ℚ) (Np : ℕ) (sq : ℕ → ℚ) :
    (0 < n.visits → n.uct c Np sq = F32.val (n.uctSpec c Np sq)) ∧
    (n.visits = 0 → n.total_value = 0 → n.uct c Np sq = F32.nan) := by
  constructor
  · intro h
    have h0 : n.visits ≠ 0 := Nat.pos_iff_ne_zero.mp h
    simp only [Node.uct, Node.value, fdivNat, h0, if_false, F32.addVal,
      Node.uctSpec, F32.val.injEq]
    ring
  · intro h hw
    simp [Node.uct, Node.value, fdivNat, h, hw, F32.addVal]

/-- C3 witness: a node with 2 visits, total value 1, policy 1; with
`c_puct = 1`, `Np = 4`, `sqrt 4 = 2` the code and the claimed formula agree
(both give `1/2 + 2/3 = 7/6`). -/
theorem claim_C3_uct_witness :
    0 < (⟨0, 0, 0, none, 1, 2, 1⟩ : Node).visits ∧
    (⟨0, 0, 0, none, 1, 2, 1⟩ : Node).uct 1 4 (fun _ => 2) =
      F32.val ((⟨0, 0, 0, none, 1, 2, 1⟩ : Node).uctSpec 1 4 (fun _ => 2)) :=
  ⟨by decide, (claim_C3_uct ⟨0, 0, 0, none, 1, 2, 1⟩ 1 4 (fun _ => 2)).1 (by decide)⟩

/-! ### Claim C4: `MoveSelector::select` -/

theorem positionMaxAux_spec (v : ℕ → ℚ) :
    ∀ (xs : List ℚ) (bi i : ℕ),
      bi < i →
      (∀ t, t < xs.length → xs.getD t 0 = v (i + t)) →
      (∀ k, k < i → v k ≤ v bi) →
      (∀ k, k < i → v k = v bi → k ≤ bi) →
      positionMaxAux bi (v bi) i xs < i + xs.length ∧
      (∀ k, k < i + xs.length → v k ≤ v (positionMaxAux bi (v bi) i xs)) ∧
      (∀ k, k < i + xs.length → v k = v (positionMaxAux bi (v bi) i xs) →
        k ≤ positionMaxAux bi (v bi) i xs) := by
  intro xs
  induction xs with
  | nil =>
    intro bi i hlt _ hmax htie
    refine ⟨by simpa [positionMaxAux] using hlt, ?_, ?_⟩
    · intro k hk; simpa [positionMaxAux] using hmax k (by simpa using hk)
    · intro k hk he
      simp only [positionMaxAux] at he ⊢
      exact htie k (by simpa using hk) he
  | cons x xs ih =>
    intro bi i hlt hsuf hmax htie
    have hx : x = v i := by simpa using hsuf 0 (by simp)
    have hsuf' : ∀ t, t < xs.length → xs.getD t 0 = v (i + 1 + t) := by
      intro t ht
      have := hsuf (t + 1) (by simpa using Nat.succ_lt_succ ht)
      simpa [Nat.add_assoc, Nat.add_comm 1 t] using this
    rw [positionMaxAux, hx]
    by_cases hle : v bi ≤ v i
    · rw [if_pos hle]
      have hmax' : ∀ k, k < i + 1 → v k ≤ v i := by
        intro k hk
        rcases Nat.lt_succ_iff_lt_or_eq.mp hk with hk' | rfl
        · exact le_trans (hmax k hk') hle
        · exact le_refl _
      have htie' : ∀ k, k < i + 1 → v k = v i → k ≤ i :=
        fun k hk _ => Nat.lt_succ_iff.mp hk
      have := ih i (i + 1) (Nat.lt_succ_self i) hsuf' hmax' htie'
      refine ⟨?_, ?_, ?_⟩
      · have h1 := this.1
        simp only [List.length_cons]
        omega
      · intro k hk
        simp only [List.length_cons] at hk
        exact this.2.1 k (by omega)
      · intro k hk he
        simp only [List.length_cons] at hk
        exact this.2.2 k (by omega) he
    · rw [if_neg hle]
      have hxlt : v i < v bi := lt_of_not_le hle
      have hmax' : ∀ k, k < i + 1 → v k ≤ v bi := by
        intro k hk
        rcases Nat.lt_succ_iff_lt_or_eq.mp hk with hk' | rfl
        · exact hmax k hk'
        · exact le_of_lt hxlt
      have htie' : ∀ k, k < i + 1 → v k = v bi → k ≤ bi := by
        intro k hk he
        rcases Nat.lt_succ_iff_lt_or_eq.mp hk with hk' | rfl
        · exact htie k hk' he
        · exact absurd he (ne_of_lt hxlt)
      have := ih bi (i + 1) (by omega) hsuf' hmax' htie'
      refine ⟨?_, ?_, ?_⟩
      · have h1 := this.1
        simp only [List.length_cons]
        omega
      · intro k hk
        simp only [List.length_cons] at hk
        exact this.2.1 k (by omega)
      · intro k hk he
        simp only [List.length_cons] at hk
        exact this.2.2 k (by omega) he

theorem position_max_spec (p : List ℚ) (hne : p ≠ []) :
    ∃ j, position_max p = some j ∧ j < p.length ∧
      (∀ k, k < p.length → p.getD k 0 ≤ p.getD j 0) ∧
      (∀ k, k < p.length → p.getD k 0 = p.getD j 0 → k ≤ j) := by
  obtain ⟨x, rest, rfl⟩ := List.exists_cons_of_ne_nil hne
  have hs := positionMaxAux_spec (fun k => (x :: rest).getD k 0) rest 0 1
    Nat.zero_lt_one
    (by
      intro t ht
      simp [Nat.add_comm 1 t])
    (by
      intro k hk
      interval_cases k
      simp)
    (by
      intro k hk _
      omega)
  simp only [List.getD_cons_zero] at hs
  refine ⟨positionMaxAux 0 x 1 rest, rfl, ?_, ?_, ?_⟩
  · have h1 := hs.1
    simp only [List.length_cons]
    omega
  · intro k hk
    simp only [List.length_cons] at hk
    exact hs.2.1 k (by omega)
  · intro k hk he
    simp only [List.length_cons] at hk
    exact hs.2.2 k (by omega) he

theorem weightedIndexSample_spec :
    ∀ (ws : List ℚ) (x : ℚ), (∀ w ∈ ws, 0 ≤ w) → 0 ≤ x → x < ws.sum →
      (ws.take (weightedIndexSample ws x)).sum ≤ x ∧
      x < (ws.take (weightedIndexSample ws x + 1)).sum ∧
      weightedIndexSample ws x < ws.length := by
  intro ws
  induction ws with
  | nil =>
    intro x _ h0 hx
    simp at hx
    exact absurd (lt_of_le_of_lt h0 hx) (lt_irrefl 0)
  | cons w rest ih =>
    intro x hnn h0 hx
    rw [weightedIndexSample]
    by_cases hlt : x < w
    · rw [if_pos hlt]
      exact ⟨by simpa using h0, by simpa using hlt, by simp⟩
    · rw [if_neg hlt]
      have hwle : w ≤ x := le_of_not_lt hlt
      have hrest := ih (x - w) (fun y hy => hnn y (List.mem_cons_of_mem _ hy))
        (by linarith) (by rw [List.sum_cons] at hx; linarith)
      refine ⟨?_, ?_, by simpa using Nat.succ_lt_succ hrest.2.2⟩
      · rw [List.take_succ_cons, List.sum_cons]
        linarith [hrest.1]
      · rw [List.take_succ_cons, List.sum_cons]
        linarith [hrest.2.1]

/-- C4 counterexample: with threshold `T = 0` at move `m = 1` on the tied
policy `[1, 1]` the code returns index `1` (itertools' `position_max` keeps
the *last* maximum), while the claim prescribes the lowest tied index `0`. -/
theorem claim_C4_select_counterexample :
    (⟨0⟩ : MoveSelector).select 1 [1, 1] 0 = .ok 1 ∧
    positionMaxFirstSpec [1, 1] = some 0 ∧
    (1 : ℕ) ≠ 0 := by
  refine ⟨rfl, rfl, by decide⟩

/-- C4 (corrected): when `m > T` (not `m ≥ T`: at `m = T` the code still
samples) `select` returns the index of the maximal policy entry with ties
broken by the *highest* index; when `m ≤ T` and the weights are valid it
returns the weighted sample, whose index is the one whose cumulative-weight
interval (of length `policy[i]`, hence with probability proportional to it)
contains the uniform draw `x`. -/
theorem claim_C4_select (s : MoveSelector) (m : ℕ) (p : List ℚ) (x : ℚ) :
    (s.inf_temp_move_count < m → p ≠ [] →
      ∃ j, s.select m p x = .ok j ∧ j < p.length ∧
        (∀ k, k < p.length → p.getD k 0 ≤ p.getD j 0) ∧
        (∀ k, k < p.length → p.getD k 0 = p.getD j 0 → k ≤ j)) ∧
    (m ≤ s.inf_temp_move_count → (∀ w ∈ p, 0 ≤ w) → 0 < p.sum →
      s.select m p x = .ok (weightedIndexSample p x) ∧
      (0 ≤ x → x < p.sum →
        (p.take (weightedIndexSample p x)).sum ≤ x ∧
        x < (p.take (weightedIndexSample p x + 1)).sum ∧
        weightedIndexSample p x < p.length)) := by
  constructor
  · intro hm hne
    obtain ⟨j, hj, hlen, hmax, htie⟩ := position_max_spec p hne
    refine ⟨j, ?_, hlen, hmax, htie⟩
    rw [MoveSelector.select, if_pos hm, hj]
  · intro hm hnn hsum
    have hne : p ≠ [] := by
      intro h
      rw [h] at hsum
      simp at hsum
    have hvalid : weightedIndexNew p = .ok p := by
      unfold weightedIndexNew
      rw [if_neg hne, if_neg, if_neg (not_le.mpr hsum)]
      simp only [List.any_eq_true, decide_eq_true_eq, not_exists, not_and, not_lt]
      exact fun w hw => hnn w hw
    constructor
    · rw [MoveSelector.select, if_neg (not_lt.mpr hm), hvalid]
    · intro h0 hx
      exact weightedIndexSample_spec p x hnn h0 hx

/-- C4 witness: with threshold 2, at move 3 the argmax branch picks index 1 of
`[1, 2]`; at move 1 with draw `3/2 ∈ [1, 1+2)` the sampling branch picks
index 1, whose cumulative interval `[1, 3)` contains the draw. -/
theorem claim_C4_select_witness :
    (∃ j, (⟨2⟩ : MoveSelector).select 3 [1, 2] 0 = .ok j ∧ j < 2 ∧
      (∀ k, k < ([1, 2] : List ℚ).length → ([1, 2] : List ℚ).getD k 0 ≤ ([1, 2] : List ℚ).getD j 0) ∧
      (∀ k, k < ([1, 2] : List ℚ).length →
        ([1, 2] : List ℚ).getD k 0 = ([1, 2] : List ℚ).getD j 0 → k ≤ j)) ∧
    ((⟨2⟩ : MoveSelector).select 1 [1, 2] (3 / 2) =
        .ok (weightedIndexSample [1, 2] (3 / 2)) ∧
      (0 ≤ (3 / 2 : ℚ) → (3 / 2 : ℚ) < ([1, 2] : List ℚ).sum →
        (([1, 2] : List ℚ).take (weightedIndexSample [1, 2] (3 / 2))).sum ≤ 3 / 2 ∧
        (3 / 2 : ℚ) < (([1, 2] : List ℚ).take (weightedIndexSample [1, 2] (3 / 2) + 1)).sum ∧
        weightedIndexSample [1, 2] (3 / 2) < ([1, 2] : List ℚ).length)) :=
  ⟨(claim_C4_select ⟨2⟩ 3 [1, 2] 0).1 (by decide) (by decide),
   (claim_C4_select ⟨2⟩ 1 [1, 2] (3 / 2)).2 (by decide) (by norm_num) (by norm_num)⟩

/-! ### Arena access lemmas -/

theorem getNode_set_self {ns : List Node} {i : ℕ} (h : i < ns.length) (a : Node) :
    getNode (ns.set i a) i = a := by
  simp [getNode, List.getD_eq_getElem?_getD, List.getElem?_set_self, h]

theorem getNode_set_ne {ns : List Node} {i j : ℕ} (h : i ≠ j) (a : Node) :
    getNode (ns.set i a) j = getNode ns j := by
  simp [getNode, List.getD_eq_getElem?_getD, List.getElem?_set_ne h]

theorem getNode_append_lt {ns ms : List Node} {j : ℕ} (h : j < ns.length) :
    getNode (ns ++ ms) j = getNode ns j := by
  simp [getNode, List.getD_eq_getElem?_getD, List.getElem?_append, h]

theorem getNode_append_ge {ns ms : List Node} {j : ℕ} (h : ns.length ≤ j) :
    getNode (ns ++ ms) j = getNode ms (j - ns.length) := by
  simp [getNode, List.getD_eq_getElem?_getD, List.getElem?_append_right h]

theorem getNode_oob {ns : List Node} {j : ℕ} (h : ns.length ≤ j) :
    getNode ns j = Node.new 0 0 := by
  simp [getNode, List.getD_eq_getElem?_getD, List.getElem?_eq_none h]

theorem bump_children (n : Node) (w : ℚ) : (n.bump w).children = n.children := rfl

theorem bump_coord (n : Node) (w : ℚ) : (n.bump w).coord = n.coord := rfl

theorem bump_visits (n : Node) (w : ℚ) : (n.bump w).visits = n.visits + 1 := rfl

theorem bump_total (n : Node) (w : ℚ) :
    (n.bump w).total_value = n.total_value + w := rfl

theorem new_children (c : ℕ) (p : ℚ) : (Node.new c p).children = none := rfl

theorem mem_iter {r : IdxRange} {c : ℕ} :
    c ∈ r.iter ↔ r.start ≤ c ∧ c < r.start + r.length := by
  rw [IdxRange.iter, List.mem_range']
  constructor
  · rintro ⟨i, hi, rfl⟩
    omega
  · rintro ⟨h1, h2⟩
    exact ⟨c - r.start, by omega, by omega⟩

/-! ### Reversed root paths -/

theorem RevPathOk.head_lt {ns : List Node} {x : ℕ} {l : List ℕ} (h0 : 0 < ns.length) :
    RevPathOk ns (x :: l) → x < ns.length := by
  cases l with
  | nil => intro h; rw [RevPathOk] at h; omega
  | cons y l => intro h; exact h.1

theorem RevPathOk.pairwise {ns : List Node} :
    ∀ {rp : List ℕ}, RevPathOk ns rp → rp.Pairwise (· > ·) := by
  intro rp
  induction rp with
  | nil => intro _; exact List.Pairwise.nil
  | cons c l ih =>
    intro h
    cases l with
    | nil => simp
    | cons p rest =>
      rw [RevPathOk] at h
      have htail := ih h.2.2.2
      refine List.Pairwise.cons ?_ htail
      intro z hz
      rcases List.mem_cons.mp hz with rfl | hz'
      · exact h.2.1
      · exact lt_trans (List.rel_of_pairwise_cons htail hz') h.2.1

theorem RevPathOk.bounds {ns : List Node} (h0 : 0 < ns.length) :
    ∀ {rp : List ℕ}, RevPathOk ns rp → ∀ x ∈ rp, x < ns.length := by
  intro rp
  induction rp with
  | nil => intro _ x hx; simp at hx
  | cons c l ih =>
    intro h x hx
    rcases List.mem_cons.mp hx with rfl | hx'
    · exact RevPathOk.head_lt h0 h
    · cases l with
      | nil => simp at hx'
      | cons p rest =>
        rw [RevPathOk] at h
        exact ih h.2.2.2 x hx'

theorem RevPathOk.nodup {ns : List Node} {rp : List ℕ} (h : RevPathOk ns rp) :
    rp.Nodup :=
  List.Pairwise.imp (fun hgt => Nat.ne_of_gt hgt) h.pairwise

/-! ### The effect of backpropagation -/

theorem backprop_spec :
    ∀ (rp : List ℕ) (ns : List Node) (v : ℚ),
      (∀ x ∈ rp, x < ns.length) → rp.Nodup →
      ∃ ns', backprop ns rp v = .ok ns' ∧
        ns'.length = ns.length ∧
        (∀ i, i ∉ rp → getNode ns' i = getNode ns i) ∧
        (∀ i ∈ rp, ∃ e : ℚ, |e| = |v| ∧ getNode ns' i = (getNode ns i).bump e) ∧
        (∀ q rest, rp = q :: rest → getNode ns' q = (getNode ns q).bump (-v)) := by
  intro rp
  induction rp with
  | nil =>
    intro ns v _ _
    exact ⟨ns, rfl, rfl, fun _ _ => rfl, by simp, by simp⟩
  | cons q rest ih =>
    intro ns v hbd hnd
    have hq : q < ns.length := hbd q (List.mem_cons_self _ _)
    have hqrest : q ∉ rest := (List.nodup_cons.mp hnd).1
    set ns₁ := ns.set q ((getNode ns q).bump (-v)) with hns₁
    have hlen₁ : ns₁.length = ns.length := by simp [hns₁]
    obtain ⟨ns', hok, hlen, hout, hin, _⟩ :=
      ih ns₁ (-v)
        (by
          intro x hx
          rw [hlen₁]
          exact hbd x (List.mem_cons_of_mem _ hx))
        (List.nodup_cons.mp hnd).2
    refine ⟨ns', ?_, by rw [hlen, hlen₁], ?_, ?_, ?_⟩
    · rw [backprop, if_pos hq]
      exact hok
    · intro i hi
      have hi1 : i ∉ rest := fun hc => hi (List.mem_cons_of_mem _ hc)
      have hiq : i ≠ q := fun hc => hi (hc ▸ List.mem_cons_self _ _)
      rw [hout i hi1, hns₁, getNode_set_ne (Ne.symm hiq)]
    · intro i hi
      rcases List.mem_cons.mp hi with rfl | hi'
      · refine ⟨-v, by simp, ?_⟩
        rw [hout i hqrest, hns₁, getNode_set_self hq]
      · obtain ⟨e, he, hei⟩ := hin i hi'
        refine ⟨e, by simpa using he, ?_⟩
        rw [hei, hns₁, getNode_set_ne]
        intro hc
        exact hqrest (hc ▸ hi')
    · intro q2 rest2 heq
      injection heq with h1 h2
      subst h1
      rw [hout q hqrest, hns₁, getNode_set_self hq]

/-! ### Parents and reconstructed boards -/

theorem find?_ext {p q : ℕ → Bool} :
    ∀ (l : List ℕ), (∀ x ∈ l, p x = q x) → l.find? p = l.find? q := by
  intro l
  induction l with
  | nil => intro _; rfl
  | cons x xs ih =>
    intro h
    rw [List.find?_cons, List.find?_cons, h x (List.mem_cons_self _ _)]
    cases hq : q x with
    | true => rfl
    | false => exact ih (fun y hy => h y (List.mem_cons_of_mem _ hy))

theorem find?_unique {p : ℕ → Bool} :
    ∀ {l : List ℕ} {a : ℕ}, a ∈ l → p a = true →
      (∀ b ∈ l, p b = true → b = a) → l.find? p = some a := by
  intro l
  induction l with
  | nil => intro a ha; simp at ha
  | cons x xs ih =>
    intro a ha hpa huniq
    rw [List.find?_cons]
    cases hx : p x with
    | true =>
      have : x = a := huniq x (List.mem_cons_self _ _) hx
      rw [this]
    | false =>
      have hax : a ≠ x := by
        intro hc
        rw [hc, hx] at hpa
        exact Bool.false_ne_true hpa
      have ha' : a ∈ xs := by
        rcases List.mem_cons.mp ha with rfl | h
        · exact absurd rfl hax
        · exact h
      exact ih ha' hpa (fun b hb => huniq b (List.mem_cons_of_mem _ hb))

theorem inChildren_iff {ns : List Node} {i c : ℕ} :
    inChildren ns i c = true ↔
      ∃ r, (getNode ns i).children = some r ∧ c ∈ r.iter := by
  rw [inChildren]
  cases h : (getNode ns i).children with
  | none => simp
  | some r =>
    simp only [Bool.and_eq_true, decide_eq_true_eq]
    constructor
    · intro hc
      exact ⟨r, rfl, mem_iter.mpr hc⟩
    · rintro ⟨r', hr', hc⟩
      cases hr'
      exact mem_iter.mp hc

/-- On a disjoint arena, a node contained in `i`'s children range has parent
exactly `i`. -/
theorem parentIdx_eq {ns : List Node} {i c : ℕ} {r : IdxRange}
    (hdis : ∀ a b ra rb, a < ns.length → b < ns.length → a ≠ b →
      (getNode ns a).children = some ra → (getNode ns b).children = some rb →
      ∀ x, x ∈ ra.iter → x ∉ rb.iter)
    (hi : i < ns.length) (hr : (getNode ns i).children = some r) (hc : c ∈ r.iter) :
    parentIdx ns c = some i := by
  rw [parentIdx]
  apply find?_unique
  · exact List.mem_range.mpr hi
  · exact inChildren_iff.mpr ⟨r, hr, hc⟩
  · intro b hb hpb
    obtain ⟨rb, hrb, hcb⟩ := inChildren_iff.mp hpb
    by_contra hbi
    exact hdis i b r rb hi (List.mem_range.mp hb) (fun hc' => hbi hc'.symm) hr hrb c hc hcb

theorem boardOfFuel_mono {B : Type} (g : Game B) (b0 : B) (ns : List Node) :
    ∀ (j f f' : ℕ), j < f → j < f' →
      boardOfFuel g b0 ns f j = boardOfFuel g b0 ns f' j := by
  intro j
  induction j using Nat.strong_induction_on with
  | _ j ih =>
    intro f f' hf hf'
    obtain ⟨fa, rfl⟩ : ∃ fa, f = fa + 1 := ⟨f - 1, by omega⟩
    obtain ⟨fb, rfl⟩ : ∃ fb, f' = fb + 1 := ⟨f' - 1, by omega⟩
    rw [boardOfFuel, boardOfFuel]
    by_cases hj : j = 0
    · simp [hj]
    · simp only [hj, if_false]
      cases hpar : parentIdx ns j with
      | none => rfl
      | some i =>
        by_cases hij : i < j
        · simp only [hij, if_true]
          rw [ih i hij fa fb (by omega) (by omega)]
        · simp [hij]

theorem boardOf_child {B : Type} (g : Game B) (b0 : B) (ns : List Node) {c i : ℕ}
    (hpar : parentIdx ns c = some i) (hic : i < c) :
    boardOf g b0 ns c =
      (boardOf g b0 ns i).map (fun b => g.play b (getNode ns c).coord) := by
  rw [boardOf, boardOf, boardOfFuel]
  have hc0 : c ≠ 0 := by omega
  simp only [hc0, if_false, hpar, hic, if_true]
  rw [boardOfFuel_mono g b0 ns i c (i + 1) hic (by omega)]

theorem parentIdx_congr {ns ns' : List Node} (hlen : ns'.length = ns.length)
    (hch : ∀ i, (getNode ns' i).children = (getNode ns i).children) :
    ∀ j, parentIdx ns' j = parentIdx ns j := by
  intro j
  rw [parentIdx, parentIdx, hlen]
  apply find?_ext
  intro x _
  rw [inChildren, inChildren, hch]

/-- Boards are reconstructed from the children ranges and coordinates only, so
updates that keep those (backpropagation) keep every board. -/
theorem boardOf_congr {B : Type} (g : Game B) (b0 : B) {ns ns' : List Node}
    (hlen : ns'.length = ns.length)
    (hch : ∀ i, (getNode ns' i).children = (getNode ns i).children)
    (hco : ∀ i, (getNode ns' i).coord = (getNode ns i).coord) :
    ∀ j, boardOf g b0 ns' j = boardOf g b0 ns j := by
  suffices h : ∀ f j, j < f → boardOfFuel g b0 ns' f j = boardOfFuel g b0 ns f j by
    intro j
    exact h (j + 1) j (by omega)
  intro f
  induction f with
  | zero => intro j hj; omega
  | succ fa ih =>
    intro j hj
    rw [boardOfFuel, boardOfFuel]
    by_cases hj0 : j = 0
    · simp [hj0]
    · simp only [hj0, if_false]
      rw [parentIdx_congr hlen hch j]
      cases hpar : parentIdx ns j with
      | none => rfl
      | some i =>
        by_cases hij : i < j
        · simp only [hij, if_true]
          rw [ih i (by omega), hco j]
        · simp [hij]

theorem find?_all_false {p : ℕ → Bool} :
    ∀ {l : List ℕ}, (∀ x ∈ l, p x = false) → l.find? p = none := by
  intro l
  induction l with
  | nil => intro _; rfl
  | cons x xs ih =>
    intro h
    rw [List.find?_cons, h x (List.mem_cons_self _ _)]
    exact ih (fun y hy => h y (List.mem_cons_of_mem _ hy))

theorem find?_append_false {p : ℕ → Bool} :
    ∀ (l1 l2 : List ℕ), (∀ x ∈ l2, p x = false) →
      (l1 ++ l2).find? p = l1.find? p := by
  intro l1
  induction l1 with
  | nil =>
    intro l2 h
    simpa using find?_all_false h
  | cons x xs ih =>
    intro l2 h
    rw [List.cons_append, List.find?_cons, List.find?_cons]
    cases hx : p x with
    | true => rfl
    | false => exact ih l2 h

theorem range_split (a b : ℕ) (hab : a ≤ b) :
    List.range b = List.range a ++ List.range' a (b - a) := by
  rw [List.range_eq_range', List.range_eq_range']
  have h := List.range'_append_1 0 a (b - a)
  rw [Nat.zero_add] at h
  rw [h]
  congr 1
  omega

theorem parentIdx_lt {ns : List Node} {j i : ℕ} (h : parentIdx ns j = some i) :
    i < ns.length := by
  rw [parentIdx] at h
  have := List.mem_of_find?_eq_some h
  exact List.mem_range.mp this

/-- `parentIdx` of an old node is unchanged by an update that keeps membership
of old nodes in all children ranges and only grows the arena. -/
theorem parentIdx_extend {ns ns' : List Node} (hL : ns.length ≤ ns'.length)
    (hin : ∀ i j, j < ns.length → inChildren ns' i j = inChildren ns i j) :
    ∀ j, j < ns.length → parentIdx ns' j = parentIdx ns j := by
  intro j hj
  rw [parentIdx, parentIdx]
  rw [range_split ns.length ns'.length hL]
  rw [find?_append_false]
  · apply find?_ext
    intro x _
    exact hin x j hj
  · intro x hx
    have hxge : ns.length ≤ x := (List.mem_range'_1.mp hx).1
    rw [hin x j hj, inChildren, getNode_oob hxge]
    rfl

/-- Boards of old nodes survive an arena extension that keeps old parents and
old coordinates. -/
theorem boardOf_extend {B : Type} (g : Game B) (b0 : B) {ns ns' : List Node}
    (hpar : ∀ j, j < ns.length → parentIdx ns' j = parentIdx ns j)
    (hco : ∀ j, j < ns.length → (getNode ns' j).coord = (getNode ns j).coord) :
    ∀ j, j < ns.length → boardOf g b0 ns' j = boardOf g b0 ns j := by
  suffices h : ∀ f j, j < f → j < ns.length →
      boardOfFuel g b0 ns' f j = boardOfFuel g b0 ns f j by
    intro j hj
    exact h (j + 1) j (by omega) hj
  intro f
  induction f with
  | zero => intro j hj; omega
  | succ fa ih =>
    intro j hj hjL
    rw [boardOfFuel, boardOfFuel]
    by_cases hj0 : j = 0
    · simp [hj0]
    · simp only [hj0, if_false]
      rw [hpar j hjL]
      cases hpidx : parentIdx ns j with
      | none => rfl
      | some i =>
        by_cases hij : i < j
        · simp only [hij, if_true]
          rw [ih i (by omega) (by omega), hco j hjL]
        · simp [hij]

/-! ### The descent loop -/

theorem iter_ne_nil {r : IdxRange} (h : 0 < r.length) : r.iter ≠ [] := by
  rw [IdxRange.iter]
  simp only [ne_eq, List.range'_eq_nil]
  omega

theorem walk_spec {B : Type} (g : Game B) (sq : ℕ → ℚ) (ew : ℚ) (b0 : B)
    {ns : List Node} (h0 : 0 < ns.length)
    (hranges : ∀ i r, i < ns.length → (getNode ns i).children = some r →
      i < r.start ∧ r.start + r.length ≤ ns.length ∧ 0 < r.length)
    (hdis : ∀ a b ra rb, a < ns.length → b < ns.length → a ≠ b →
      (getNode ns a).children = some ra → (getNode ns b).children = some rb →
      ∀ x, x ∈ ra.iter → x ∉ rb.iter) :
    ∀ (fuel curr : ℕ) (board : B) (revAcc : List ℕ),
      ns.length - curr < fuel →
      boardOf g b0 ns curr = some board →
      RevPathOk ns (curr :: revAcc) →
      ∃ out, walk g sq ew fuel ns curr board revAcc = .ok out ∧
        WalkOutOk g b0 ns out := by
  intro fuel
  induction fuel with
  | zero => intro curr board revAcc hf; omega
  | succ f ih =>
    intro curr board revAcc hf hboard hrp
    have hcurr : curr < ns.length := RevPathOk.head_lt h0 hrp
    rw [walk, if_pos hcurr]
    cases hwon : g.wonBy board with
    | some w =>
      dsimp only
      refine ⟨.terminal (curr :: revAcc) (if w = Player.neutral then 0 else -1), rfl, ?_⟩
      exact ⟨by simp, hrp, board, w, by simpa using hboard, hwon, rfl⟩
    | none =>
      dsimp only
      cases hch : (getNode ns curr).children with
      | none =>
        dsimp only
        refine ⟨.leaf (curr :: revAcc) curr board, rfl, ?_⟩
        exact ⟨by simp, hrp, rfl, hboard, hwon, hch⟩
      | some r =>
        obtain ⟨hlt, hbd, hpos⟩ := hranges curr r hcurr hch
        dsimp only
        rw [if_pos hbd]
        obtain ⟨x, xs, hxs⟩ := List.exists_cons_of_ne_nil (iter_ne_nil hpos)
        rw [hxs, maxBy]
        set sel := maxByAux
          (fun a b =>
            F32.fle ((getNode ns a).uct ew ((getNode ns curr).visits) sq)
              ((getNode ns b).uct ew ((getNode ns curr).visits) sq)) x xs with hsel
        have hselmem : sel ∈ r.iter := by
          rw [hxs]
          exact maxByAux_mem _ xs x
        have hselr : r.start ≤ sel ∧ sel < r.start + r.length := mem_iter.mp hselmem
        have hpar : parentIdx ns sel = some curr := parentIdx_eq hdis hcurr hch hselmem
        have hselb : boardOf g b0 ns sel =
            some (g.play board (getNode ns sel).coord) := by
          rw [boardOf_child g b0 ns hpar (by omega), hboard]
          rfl
        have hrp' : RevPathOk ns (sel :: curr :: revAcc) :=
          ⟨by omega, by omega, ⟨r, hch, hselmem⟩, hrp⟩
        exact ih sel (g.play board (getNode ns sel).coord) (curr :: revAcc)
          (by omega) hselb hrp'

/-! ### Counting path members inside a children range -/

theorem sum_map_add (l : List ℕ) (f g : ℕ → ℕ) :
    (l.map (fun j => f j + g j)).sum = (l.map f).sum + (l.map g).sum := by
  induction l with
  | nil => rfl
  | cons x xs ih =>
    simp only [List.map_cons, List.sum_cons, ih]
    omega

theorem sum_indicator_eq (l : List ℕ) (hnd : l.Nodup) (c : ℕ) :
    (l.map (fun j => if j = c then (1 : ℕ) else 0)).sum = if c ∈ l then 1 else 0 := by
  induction l with
  | nil => simp
  | cons x xs ih =>
    have hx : x ∉ xs := (List.nodup_cons.mp hnd).1
    simp only [List.map_cons, List.sum_cons, ih (List.nodup_cons.mp hnd).2]
    by_cases hxc : x = c
    · subst hxc
      simp [hx]
    · simp [hxc, Ne.symm hxc, List.mem_cons]

/-- On a reversed root path, the number of path members inside the children
range of an expanded node `i` is `1` when `i` is a non-head path member and `0`
otherwise (each walk that passes through `i` descends into exactly one child). -/
theorem revpath_count {ns : List Node} (h0 : 0 < ns.length)
    (hranges : ∀ i r, i < ns.length → (getNode ns i).children = some r →
      i < r.start ∧ r.start + r.length ≤ ns.length ∧ 0 < r.length)
    (hdis : ∀ a b ra rb, a < ns.length → b < ns.length → a ≠ b →
      (getNode ns a).children = some ra → (getNode ns b).children = some rb →
      ∀ x, x ∈ ra.iter → x ∉ rb.iter) :
    ∀ (rp : List ℕ), RevPathOk ns rp →
      ∀ i r, i < ns.length → (getNode ns i).children = some r →
        (r.iter.map (fun j => if j ∈ rp then (1 : ℕ) else 0)).sum =
          if i ∈ rp.tail then 1 else 0 := by
  intro rp
  induction rp with
  | nil =>
    intro _ i r _ _
    simp
  | cons c tail ih =>
    intro hrp i r hi hr
    cases tail with
    | nil =>
      rw [RevPathOk] at hrp
      subst hrp
      have hstart : 0 < r.start := by
        have := (hranges i r hi hr).1
        omega
      simp only [List.tail_cons, List.not_mem_nil, if_false]
      have : ∀ j ∈ r.iter, (if j ∈ [0] then (1 : ℕ) else 0) = 0 := by
        intro j hj
        have h1 := (mem_iter.mp hj).1
        have hj0 : j ≠ 0 := by omega
        simp [hj0]
      rw [List.map_congr_left this]
      simp
    | cons p rest =>
      rw [RevPathOk] at hrp
      obtain ⟨hclen, hpc, ⟨r', hr', hcr'⟩, hrp'⟩ := hrp
      have hppair := RevPathOk.pairwise hrp'
      have hpnotin : p ∉ rest := by
        intro hc
        exact absurd (List.rel_of_pairwise_cons hppair hc) (lt_irrefl p)
      have hcnotin : c ∉ p :: rest := by
        have hpair := RevPathOk.pairwise (show RevPathOk ns (c :: p :: rest) from
          ⟨hclen, hpc, ⟨r', hr', hcr'⟩, hrp'⟩)
        intro hc
        exact absurd (List.rel_of_pairwise_cons hpair hc) (lt_irrefl c)
      have hp : p < ns.length := RevPathOk.head_lt h0 hrp'
      have hsplit : ∀ j ∈ r.iter,
          (if j ∈ c :: p :: rest then (1 : ℕ) else 0) =
            (if j = c then (1 : ℕ) else 0) + (if j ∈ p :: rest then 1 else 0) := by
        intro j _
        by_cases hjc : j = c
        · subst hjc
          simp [hcnotin]
        · simp [hjc, List.mem_cons]
      rw [List.map_congr_left hsplit, sum_map_add,
        sum_indicator_eq r.iter (List.pairwise_lt_range' _ _ |>.imp fun h => Nat.ne_of_lt h) c,
        ih hrp' i r hi hr]
      simp only [List.tail_cons]
      by_cases hcir : c ∈ r.iter
      · have hpi : p = i := by
          by_contra hne
          exact hdis p i r' r hp hi hne hr' hr c hcr' hcir
        subst hpi
        have hrr : r' = r := by
          rw [hr'] at hr
          exact Option.some.inj hr
        simp only [hcir, if_true]
        simp [hpnotin, List.mem_cons]
      · simp only [hcir, if_false, Nat.zero_add]
        have hip : i ≠ p := by
          intro hc
          subst hc
          rw [hr'] at hr
          cases Option.some.inj hr
          exact hcir hcr'
        simp [List.mem_cons, hip]

/-! ### More facts about reversed root paths -/

theorem RevPathOk.zero_mem {ns : List Node} :
    ∀ {rp : List ℕ}, RevPathOk ns rp → rp ≠ [] → 0 ∈ rp := by
  intro rp
  induction rp with
  | nil => intro _ h; exact absurd rfl h
  | cons c tail ih =>
    intro h _
    cases tail with
    | nil =>
      rw [RevPathOk] at h
      subst h
      simp
    | cons p rest =>
      rw [RevPathOk] at h
      exact List.mem_cons_of_mem _ (ih h.2.2.2 (by simp))

theorem RevPathOk.tail_expanded {ns : List Node} :
    ∀ {rp : List ℕ}, RevPathOk ns rp →
      ∀ x ∈ rp.tail, ∃ r, (getNode ns x).children = some r := by
  intro rp
  induction rp with
  | nil => intro _ x hx; simp at hx
  | cons c tail ih =>
    intro h x hx
    simp only [List.tail_cons] at hx
    cases tail with
    | nil => simp at hx
    | cons p rest =>
      rw [RevPathOk] at h
      obtain ⟨_, _, ⟨r', hr', _⟩, htail⟩ := h
      rcases List.mem_cons.mp hx with rfl | hx'
      · exact ⟨r', hr'⟩
      · exact ih htail x (by simpa using hx')

/-! ### The effect of expansion -/

theorem expandAt_spec {B : Type} {g : Game B} {net : B → NetworkEvaluation}
    {ns : List Node} {n : ℕ} {bd : B} {out : List Node × ℚ}
    (hok : expandAt g net ns n bd = .ok out) :
    n < ns.length ∧ 0 < ns.length ∧ out.2 = (net bd).value ∧
    ∃ len', len' = (g.availableMoves bd).length % 256 ∧ 0 < len' ∧
      len' ≤ (g.availableMoves bd).length ∧
      out.1 = (ns ++ (g.availableMoves bd).map
          (fun c => Node.new c ((net bd).policy c))).set n
        { (getNode ns n).set_children ⟨ns.length, len'⟩ with
          evaluation := some (net bd).value } := by
  rw [expandAt] at hok
  by_cases hn : n < ns.length
  · rw [if_pos hn] at hok
    dsimp only at hok
    rw [List.length_append, List.length_map] at hok
    have hlen : ns.length + (g.availableMoves bd).length - ns.length =
        (g.availableMoves bd).length := by omega
    rw [hlen] at hok
    by_cases h0 : (g.availableMoves bd).length % 256 = 0
    · rw [if_pos h0] at hok
      exact absurd hok (by simp)
    · rw [if_neg h0] at hok
      by_cases hs : ns.length = 0
      · rw [if_pos hs] at hok
        exact absurd hok (by simp)
      · rw [if_neg hs] at hok
        have := Except.ok.inj hok
        refine ⟨hn, by omega, ?_, (g.availableMoves bd).length % 256, rfl,
          by omega, Nat.mod_le _ _, ?_⟩
        · rw [← this]
        · rw [← this]
  · rw [if_neg hn] at hok
    exact absurd hok (by simp)

theorem expandAt_exists {B : Type} {g : Game B} {net : B → NetworkEvaluation}
    {ns : List Node} {n : ℕ} {bd : B} (hwf : GameWF g) (hbd : g.wonBy bd = none)
    (hn : n < ns.length) (h0 : 0 < ns.length) :
    ∃ out, expandAt g net ns n bd = .ok out := by
  obtain ⟨hne, hle⟩ := hwf bd hbd
  have hmlen : 0 < (g.availableMoves bd).length := List.length_pos.mpr hne
  have hmod : (g.availableMoves bd).length % 256 = (g.availableMoves bd).length :=
    Nat.mod_eq_of_lt (by omega)
  rw [expandAt, if_pos hn]
  dsimp only
  rw [List.length_append, List.length_map]
  have hlen : ns.length + (g.availableMoves bd).length - ns.length =
      (g.availableMoves bd).length := by omega
  rw [hlen, hmod, if_neg (by omega), if_neg (by omega)]
  exact ⟨_, rfl⟩

/-! ### The base invariant -/

theorem TreeInv_init {B : Type} (g : Game B) (net : B → NetworkEvaluation)
    (b0 : B) (hb0 : g.wonBy b0 = none) :
    TreeInv g net b0 [Node.new 0 1] 0 := by
  have hch : ∀ i, (getNode [Node.new 0 1] i).children = none := by
    intro i
    match i with
    | 0 => rfl
    | i + 1 => rfl
  refine ⟨by simp, rfl, by omega, ?_, ?_, ?_, ?_, ?_, ?_, ?_⟩
  · intro i r _ hr
    rw [hch] at hr
    cases hr
  · intro i j r r' _ _ _ hr
    rw [hch] at hr
    cases hr
  · intro i r _ hr
    rw [hch] at hr
    cases hr
  · intro i r _ hr
    rw [hch] at hr
    cases hr
  · intro i hi _ _
    have hi0 : i = 0 := by simp at hi; omega
    subst hi0
    rfl
  · intro i bd p hi hbd hw _
    have hi0 : i = 0 := by simp at hi; omega
    subst hi0
    rw [show boardOf g b0 [Node.new 0 1] 0 = some b0 from rfl] at hbd
    cases Option.some.inj hbd
    rw [hb0] at hw
    cases hw
  · intro _ i hi
    have hi0 : i = 0 := by simp at hi; omega
    subst hi0
    simp [getNode, Node.new]

theorem boardOf_zero {B : Type} (g : Game B) (b0 : B) (ns : List Node) :
    boardOf g b0 ns 0 = some b0 := rfl

/-- Preservation of the invariant by an iteration whose walk ended on a
terminal board. -/
theorem terminal_step_inv {B : Type} {g : Game B} {net : B → NetworkEvaluation}
    {b0 : B} {ns ns' : List Node} {k : ℕ} {rp : List ℕ} {v : ℚ}
    (hb0 : g.wonBy b0 = none) (hinv : TreeInv g net b0 ns k)
    (hwo : WalkOutOk g b0 ns (.terminal rp v))
    (hok : backprop ns rp v = .ok ns') :
    TreeInv g net b0 ns' (k + 1) := by
  obtain ⟨hne, hrp, bd, w, hbd, hw, hv⟩ := hwo
  obtain ⟨q, tail, rfl⟩ := List.exists_cons_of_ne_nil hne
  simp only [List.headD_cons] at hbd
  have h0 : 0 < ns.length := hinv.len_pos
  have hbounds : ∀ x ∈ q :: tail, x < ns.length := RevPathOk.bounds h0 hrp
  have hq : q < ns.length := hbounds q (List.mem_cons_self _ _)
  obtain ⟨ns'', hbp, hlen, huntouched, htouched, hhead⟩ :=
    backprop_spec (q :: tail) ns v hbounds (RevPathOk.nodup hrp)
  rw [hok] at hbp
  cases Except.ok.inj hbp
  have hhead' := hhead q tail rfl
  have htexp := RevPathOk.tail_expanded hrp
  simp only [List.tail_cons] at htexp
  have hch : ∀ i, (getNode ns' i).children = (getNode ns i).children := by
    intro i
    by_cases hi : i ∈ q :: tail
    · obtain ⟨e, _, he⟩ := htouched i hi
      rw [he]
      rfl
    · rw [huntouched i hi]
  have hco : ∀ i, (getNode ns' i).coord = (getNode ns i).coord := by
    intro i
    by_cases hi : i ∈ q :: tail
    · obtain ⟨e, _, he⟩ := htouched i hi
      rw [he]
      rfl
    · rw [huntouched i hi]
  have hvis : ∀ i, (getNode ns' i).visits =
      (getNode ns i).visits + (if i ∈ q :: tail then 1 else 0) := by
    intro i
    by_cases hi : i ∈ q :: tail
    · obtain ⟨e, _, he⟩ := htouched i hi
      rw [he, if_pos hi]
      rfl
    · rw [huntouched i hi, if_neg hi]
      omega
  have hboards : ∀ j, boardOf g b0 ns' j = boardOf g b0 ns j :=
    boardOf_congr g b0 hlen hch hco
  have hqch : (getNode ns q).children = none := by
    cases hc : (getNode ns q).children with
    | none => rfl
    | some r =>
      obtain ⟨bd', hbd', hnd⟩ := hinv.boards q r hq hc
      rw [hbd] at hbd'
      cases Option.some.inj hbd'
      rw [hw] at hnd
      cases hnd
  have hq0 : q ≠ 0 := by
    intro hc
    subst hc
    rw [boardOf_zero] at hbd
    cases Option.some.inj hbd
    rw [hb0] at hw
    cases hw
  refine ⟨?_, ?_, ?_, ?_, ?_, ?_, ?_, ?_, ?_, ?_⟩
  · rw [hlen]
    exact h0
  · have h0mem : 0 ∈ q :: tail := RevPathOk.zero_mem hrp (by simp)
    rw [hvis 0, hinv.root_visits, if_pos h0mem]
  · intro _
    have h0mem : 0 ∈ q :: tail := RevPathOk.zero_mem hrp (by simp)
    have h0tail : 0 ∈ tail := by
      rcases List.mem_cons.mp h0mem with h | h
      · exact absurd h.symm hq0
      · exact h
    obtain ⟨r, hr⟩ := htexp 0 h0tail
    rw [hch 0, hr]
    rfl
  · intro i r hi hr
    rw [hch i] at hr
    rw [hlen] at hi ⊢
    exact hinv.ranges i r hi hr
  · intro i j r r' hi hj hij hr hr'
    rw [hch i] at hr
    rw [hch j] at hr'
    rw [hlen] at hi hj
    exact hinv.disjoint i j r r' hi hj hij hr hr'
  · intro i r hi hr
    rw [hch i] at hr
    rw [hlen] at hi
    rw [hboards i]
    exact hinv.boards i r hi hr
  · intro i r hi hr
    rw [hch i] at hr
    rw [hlen] at hi
    have hiq : i ≠ q := by
      intro hc
      subst hc
      rw [hqch] at hr
      cases hr
    have hsum : childrenVisitSum ns' r =
        childrenVisitSum ns r + (if i ∈ tail then 1 else 0) := by
      rw [childrenVisitSum, childrenVisitSum]
      rw [List.map_congr_left (fun j _ => hvis j), sum_map_add,
        revpath_count h0 hinv.ranges hinv.disjoint _ hrp i r hi hr]
      simp only [List.tail_cons]
    rw [hsum, hvis i, hinv.visit_sum i r hi hr]
    have : (i ∈ q :: tail) ↔ (i ∈ tail) := by simp [List.mem_cons, hiq]
    by_cases hit : i ∈ tail
    · rw [if_pos (this.mpr hit), if_pos hit]
      omega
    · rw [if_neg (fun hc => hit (this.mp hc)), if_neg hit]
      omega
  · intro i hi hchn hnd
    rw [hch i] at hchn
    rw [hlen] at hi
    have hnd' : ∀ bd', boardOf g b0 ns i = some bd' → g.wonBy bd' = none := by
      intro bd' hb
      exact hnd bd' (by rw [hboards i]; exact hb)
    have hmem : i ∉ q :: tail := by
      intro hmem
      rcases List.mem_cons.mp hmem with rfl | hit
      · rw [hnd' bd hbd] at hw
        cases hw
      · obtain ⟨r, hr⟩ := htexp i hit
        rw [hchn] at hr
        cases hr
    rw [hvis i, if_neg hmem, hinv.unvisited i hi hchn hnd']
  · intro i bd' p' hi hbd' hw' hp'
    rw [hlen] at hi
    rw [hboards i] at hbd'
    by_cases hiq : i = q
    · subst hiq
      rw [hbd] at hbd'
      have hbdeq : bd = bd' := Option.some.inj hbd'
      subst hbdeq
      rw [hw] at hw'
      have hweq : w = p' := Option.some.inj hw'
      have hwne : w ≠ Player.neutral := by
        rw [hweq]
        exact hp'
      have hvneg : v = -1 := by
        rw [hv, if_neg hwne]
      rw [hhead']
      rw [bump_total, bump_visits, hvneg,
        hinv.terminal_value i bd w hi hbd hw hwne]
      push_cast
      ring
    · by_cases hit : i ∈ tail
      · obtain ⟨r, hr⟩ := htexp i hit
        obtain ⟨bdx, hbdx, hndx⟩ := hinv.boards i r hi hr
        rw [hbd'] at hbdx
        cases Option.some.inj hbdx
        rw [hw'] at hndx
        cases hndx
      · have : i ∉ q :: tail := by simp [List.mem_cons, hiq, hit]
        rw [huntouched i this]
        exact hinv.terminal_value i bd' p' hi hbd' hw' hp'
  · intro hn i hi
    rw [hlen] at hi
    have hv1 : |v| ≤ 1 := by
      rw [hv]
      split_ifs <;> norm_num
    by_cases hmem : i ∈ q :: tail
    · obtain ⟨e, heabs, he⟩ := htouched i hmem
      rw [he, bump_total, bump_visits]
      push_cast
      calc |(getNode ns i).total_value + e| ≤
          |(getNode ns i).total_value| + |e| := abs_add _ _
        _ ≤ ((getNode ns i).visits : ℚ) + 1 := by
            have := hinv.bounded hn i hi
            rw [heabs]
            linarith
    · rw [huntouched i hmem]
      exact hinv.bounded hn i hi

theorem getNode_map_new {moves : List ℕ} {f : ℕ → ℚ} {t : ℕ}
    (ht : t < moves.length) :
    ∃ c, getNode (moves.map (fun c => Node.new c (f c))) t = Node.new c (f c) := by
  have htl : t < (moves.map (fun c => Node.new c (f c))).length := by
    rw [List.length_map]
    exact ht
  have hmem : getNode (moves.map (fun c => Node.new c (f c))) t ∈
      moves.map (fun c => Node.new c (f c)) := by
    rw [getNode, List.getD_eq_getElem?_getD, List.getElem?_eq_getElem htl]
    exact List.getElem_mem _
  obtain ⟨c, _, hc⟩ := List.mem_map.mp hmem
  exact ⟨c, hc.symm⟩

/-- Preservation of the invariant by an iteration whose walk reached an
unexpanded node on a non-done board, which is expanded before
backpropagation. -/
theorem leaf_step_inv {B : Type} {g : Game B} {net : B → NetworkEvaluation}
    {b0 : B} {ns ns₁ ns' : List Node} {k : ℕ} {rp : List ℕ} {n : ℕ} {bd : B} {v : ℚ}
    (_hb0 : g.wonBy b0 = none) (hinv : TreeInv g net b0 ns k)
    (hwo : WalkOutOk g b0 ns (.leaf rp n bd))
    (hexp : expandAt g net ns n bd = .ok (ns₁, v))
    (hok : backprop ns₁ rp v = .ok ns') :
    TreeInv g net b0 ns' (k + 1) := by
  obtain ⟨hne, hrp, hhd, hbd, hwn, hnch⟩ := hwo
  obtain ⟨q, tail, rfl⟩ := List.exists_cons_of_ne_nil hne
  simp only [List.headD_cons] at hhd
  subst hhd
  have h0 : 0 < ns.length := hinv.len_pos
  have hbounds : ∀ x ∈ q :: tail, x < ns.length := RevPathOk.bounds h0 hrp
  have hn : q < ns.length := hbounds q (List.mem_cons_self _ _)
  obtain ⟨hn2, h02, hv2, len', hlen'eq, hlpos, hlle, hns₁⟩ := expandAt_spec hexp
  simp only at hv2 hns₁
  subst hv2
  have hnotail : q ∉ tail := (List.nodup_cons.mp (RevPathOk.nodup hrp)).1
  have htexp := RevPathOk.tail_expanded hrp
  simp only [List.tail_cons] at htexp
  -- shape of the expanded arena
  have hlen₁ : ns₁.length = ns.length + (g.availableMoves bd).length := by
    rw [hns₁]
    simp
  have hget₁_old : ∀ i, i < ns.length → i ≠ q → getNode ns₁ i = getNode ns i := by
    intro i hiL hin
    rw [hns₁, getNode_set_ne (Ne.symm hin), getNode_append_lt hiL]
  have hget₁_q : getNode ns₁ q =
      { (getNode ns q).set_children ⟨ns.length, len'⟩ with
        evaluation := some (net bd).value } := by
    rw [hns₁]
    apply getNode_set_self
    rw [List.length_append]
    omega
  have hq_children₁ : (getNode ns₁ q).children = some ⟨ns.length, len'⟩ := by
    rw [hget₁_q, Node.children]
    simp only [Node.set_children]
    rw [if_neg (by omega)]
  have hget₁_new : ∀ j, ns.length ≤ j → j < ns.length + (g.availableMoves bd).length →
      (getNode ns₁ j).children = none ∧ (getNode ns₁ j).visits = 0 ∧
        (getNode ns₁ j).total_value = 0 := by
    intro j hjL hjm
    have hjn : j ≠ q := by omega
    rw [hns₁, getNode_set_ne (Ne.symm hjn), getNode_append_ge hjL]
    obtain ⟨c, hc⟩ := @getNode_map_new (g.availableMoves bd)
      (net bd).policy (j - ns.length) (by omega)
    rw [hc]
    exact ⟨rfl, rfl, rfl⟩
  have hvis₁ : ∀ i, (getNode ns₁ i).visits = (getNode ns i).visits := by
    intro i
    by_cases hiL : i < ns.length
    · by_cases hin : i = q
      · subst hin
        rw [hget₁_q]
        rfl
      · rw [hget₁_old i hiL hin]
    · by_cases him : i < ns.length + (g.availableMoves bd).length
      · rw [(hget₁_new i (by omega) him).2.1, getNode_oob (by omega : ns.length ≤ i)]
        rfl
      · rw [getNode_oob (by omega : ns₁.length ≤ i), getNode_oob (by omega : ns.length ≤ i)]
  have htot₁ : ∀ i, (getNode ns₁ i).total_value = (getNode ns i).total_value := by
    intro i
    by_cases hiL : i < ns.length
    · by_cases hin : i = q
      · subst hin
        rw [hget₁_q]
        rfl
      · rw [hget₁_old i hiL hin]
    · by_cases him : i < ns.length + (g.availableMoves bd).length
      · rw [(hget₁_new i (by omega) him).2.2, getNode_oob (by omega : ns.length ≤ i)]
        rfl
      · rw [getNode_oob (by omega : ns₁.length ≤ i), getNode_oob (by omega : ns.length ≤ i)]
  have hco₁ : ∀ i, i < ns.length → (getNode ns₁ i).coord = (getNode ns i).coord := by
    intro i hiL
    by_cases hin : i = q
    · subst hin
      rw [hget₁_q]
      rfl
    · rw [hget₁_old i hiL hin]
  -- backpropagation on the expanded arena
  have hbounds₁ : ∀ x ∈ q :: tail, x < ns₁.length := by
    intro x hx
    have := hbounds x hx
    omega
  obtain ⟨ns'', hbp, hlenbp, huntouched, htouched, hhead⟩ :=
    backprop_spec (q :: tail) ns₁ ((net bd).value) hbounds₁ (RevPathOk.nodup hrp)
  rw [hok] at hbp
  cases Except.ok.inj hbp
  have hhead' := hhead q tail rfl
  have hch' : ∀ i, (getNode ns' i).children = (getNode ns₁ i).children := by
    intro i
    by_cases hi : i ∈ q :: tail
    · obtain ⟨e, _, he⟩ := htouched i hi
      rw [he]
      rfl
    · rw [huntouched i hi]
  have hco' : ∀ i, (getNode ns' i).coord = (getNode ns₁ i).coord := by
    intro i
    by_cases hi : i ∈ q :: tail
    · obtain ⟨e, _, he⟩ := htouched i hi
      rw [he]
      rfl
    · rw [huntouched i hi]
  have hvis' : ∀ i, (getNode ns' i).visits =
      (getNode ns₁ i).visits + (if i ∈ q :: tail then 1 else 0) := by
    intro i
    by_cases hi : i ∈ q :: tail
    · obtain ⟨e, _, he⟩ := htouched i hi
      rw [he, if_pos hi]
      rfl
    · rw [huntouched i hi, if_neg hi]
      omega
  -- boards: backprop keeps all, expansion keeps the old ones
  have hin_ch : ∀ i j, j < ns.length → inChildren ns₁ i j = inChildren ns i j := by
    intro i j hj
    by_cases hiL : i < ns.length
    · by_cases hin : i = q
      · subst hin
        rw [inChildren, inChildren, hq_children₁, hnch]
        have : ¬ ((⟨ns.length, len'⟩ : IdxRange).start ≤ j) := by
          simp only
          omega
        simp [this]
      · rw [inChildren, inChildren, hget₁_old i hiL hin]
    · by_cases him : i < ns.length + (g.availableMoves bd).length
      · rw [inChildren, inChildren, (hget₁_new i (by omega) him).1,
          getNode_oob (by omega : ns.length ≤ i)]
        rfl
      · rw [inChildren, inChildren, getNode_oob (by omega : ns₁.length ≤ i),
          getNode_oob (by omega : ns.length ≤ i)]
  have hb_ext : ∀ j, j < ns.length → boardOf g b0 ns₁ j = boardOf g b0 ns j :=
    boardOf_extend g b0
      (parentIdx_extend (by omega : ns.length ≤ ns₁.length) hin_ch) hco₁
  have hb' : ∀ j, boardOf g b0 ns' j = boardOf g b0 ns₁ j :=
    boardOf_congr g b0 hlenbp hch' hco'
  have hbold : ∀ j, j < ns.length → boardOf g b0 ns' j = boardOf g b0 ns j := by
    intro j hj
    rw [hb' j, hb_ext j hj]
  have hq0vis : (getNode ns q).visits = 0 := by
    apply hinv.unvisited q hn hnch
    intro bd' hbd'
    rw [hbd] at hbd'
    cases Option.some.inj hbd'
    exact hwn
  -- the invariant for the new arena
  refine ⟨?_, ?_, ?_, ?_, ?_, ?_, ?_, ?_, ?_, ?_⟩
  · rw [hlenbp, hlen₁]
    omega
  · have h0mem : 0 ∈ q :: tail := RevPathOk.zero_mem hrp (by simp)
    rw [hvis' 0, hvis₁ 0, hinv.root_visits, if_pos h0mem]
  · intro _
    by_cases hq0 : q = 0
    · subst hq0
      rw [hch' 0, hq_children₁]
      rfl
    · have h0mem : 0 ∈ q :: tail := RevPathOk.zero_mem hrp (by simp)
      have h0tail : 0 ∈ tail := by
        rcases List.mem_cons.mp h0mem with h | h
        · exact absurd h.symm hq0
        · exact h
      obtain ⟨r, hr⟩ := htexp 0 h0tail
      rw [hch' 0, hget₁_old 0 h0 (fun hc => hq0 hc.symm), hr]
      rfl
  · intro i r hi hr
    rw [hch' i] at hr
    rw [hlenbp, hlen₁] at hi
    by_cases hiL : i < ns.length
    · by_cases hin : i = q
      · subst hin
        rw [hq_children₁] at hr
        cases Option.some.inj hr
        refine ⟨hn, ?_, hlpos⟩
        rw [hlenbp, hlen₁]
        simp only
        omega
      · rw [hget₁_old i hiL hin] at hr
        obtain ⟨ha, hb2, hc2⟩ := hinv.ranges i r hiL hr
        refine ⟨ha, ?_, hc2⟩
        rw [hlenbp, hlen₁]
        omega
    · rw [(hget₁_new i (by omega) (by omega)).1] at hr
      cases hr
  · intro i j r r' hi hj hij hr hr'
    rw [hch' i] at hr
    rw [hch' j] at hr'
    rw [hlenbp, hlen₁] at hi hj
    intro c hc hc'
    have hcr := mem_iter.mp hc
    have hcr' := mem_iter.mp hc'
    by_cases hiL : i < ns.length
    · by_cases hin : i = q
      · subst hin
        rw [hq_children₁] at hr
        cases Option.some.inj hr
        simp only at hcr
        -- c is a fresh index, but j's range is old or fresh
        by_cases hjL : j < ns.length
        · by_cases hjn : j = i
          · exact hij hjn.symm
          · rw [hget₁_old j hjL hjn] at hr'
            have := (hinv.ranges j r' hjL hr').2.1
            omega
        · rw [(hget₁_new j (by omega) (by omega)).1] at hr'
          cases hr'
      · rw [hget₁_old i hiL hin] at hr
        have hbi := (hinv.ranges i r hiL hr).2.1
        by_cases hjL : j < ns.length
        · by_cases hjn : j = q
          · subst hjn
            rw [hq_children₁] at hr'
            cases Option.some.inj hr'
            simp only at hcr'
            omega
          · rw [hget₁_old j hjL hjn] at hr'
            exact hinv.disjoint i j r r' hiL hjL hij hr hr' c hc hc'
        · rw [(hget₁_new j (by omega) (by omega)).1] at hr'
          cases hr'
    · rw [(hget₁_new i (by omega) (by omega)).1] at hr
      cases hr
  · intro i r hi hr
    rw [hch' i] at hr
    rw [hlenbp, hlen₁] at hi
    by_cases hiL : i < ns.length
    · by_cases hin : i = q
      · subst hin
        rw [hbold i hn]
        exact ⟨bd, hbd, hwn⟩
      · rw [hget₁_old i hiL hin] at hr
        rw [hbold i hiL]
        exact hinv.boards i r hiL hr
    · rw [(hget₁_new i (by omega) (by omega)).1] at hr
      cases hr
  · intro i r hi hr
    rw [hch' i] at hr
    rw [hlenbp, hlen₁] at hi
    by_cases hiL : i < ns.length
    · by_cases hin : i = q
      · subst hin
        rw [hq_children₁] at hr
        cases Option.some.inj hr
        rw [hvis' i, hvis₁ i, hq0vis, if_pos (List.mem_cons_self _ _)]
        have hzero : childrenVisitSum ns' ⟨ns.length, len'⟩ = 0 := by
          rw [childrenVisitSum]
          apply List.sum_eq_zero
          intro x hx
          obtain ⟨j, hj, rfl⟩ := List.mem_map.mp hx
          have hjr := mem_iter.mp hj
          simp only at hjr
          have hjnotin : j ∉ i :: tail := by
            intro hc
            have := hbounds j hc
            omega
          rw [hvis' j, if_neg hjnotin, (hget₁_new j (by omega) (by omega)).2.1]
          omega
        rw [hzero]
      · rw [hget₁_old i hiL hin] at hr
        have hsum : childrenVisitSum ns' r =
            childrenVisitSum ns r + (if i ∈ tail then 1 else 0) := by
          rw [childrenVisitSum, childrenVisitSum]
          have hcongr : ∀ j ∈ r.iter, (getNode ns' j).visits =
              (getNode ns j).visits + (if j ∈ q :: tail then 1 else 0) := by
            intro j _
            rw [hvis' j, hvis₁ j]
          rw [List.map_congr_left hcongr, sum_map_add,
            revpath_count h0 hinv.ranges hinv.disjoint _ hrp i r hiL hr]
          simp only [List.tail_cons]
        rw [hsum, hvis' i, hvis₁ i, hinv.visit_sum i r hiL hr]
        have hmemiff : (i ∈ q :: tail) ↔ (i ∈ tail) := by
          simp [List.mem_cons, hin]
        by_cases hit : i ∈ tail
        · rw [if_pos (hmemiff.mpr hit), if_pos hit]
          omega
        · rw [if_neg (fun hc => hit (hmemiff.mp hc)), if_neg hit]
          omega
    · rw [(hget₁_new i (by omega) (by omega)).1] at hr
      cases hr
  · intro i hi hchn hnd
    rw [hch' i] at hchn
    rw [hlenbp, hlen₁] at hi
    by_cases hiL : i < ns.length
    · by_cases hin : i = q
      · subst hin
        rw [hq_children₁] at hchn
        cases hchn
      · rw [hget₁_old i hiL hin] at hchn
        have hnd' : ∀ bd', boardOf g b0 ns i = some bd' → g.wonBy bd' = none := by
          intro bd' hb
          exact hnd bd' (by rw [hbold i hiL]; exact hb)
        have hmem : i ∉ q :: tail := by
          intro hmem
          rcases List.mem_cons.mp hmem with rfl | hit
          · exact hin rfl
          · obtain ⟨r, hr⟩ := htexp i hit
            rw [hchn] at hr
            cases hr
        rw [hvis' i, if_neg hmem, hvis₁ i, hinv.unvisited i hiL hchn hnd']
    · have hmem : i ∉ q :: tail := by
        intro hc
        have := hbounds i hc
        omega
      rw [hvis' i, if_neg hmem, (hget₁_new i (by omega) (by omega)).2.1]
  · intro i bd' p' hi hbd' hw' hp'
    rw [hlenbp, hlen₁] at hi
    by_cases hiL : i < ns.length
    · rw [hbold i hiL] at hbd'
      by_cases hin : i = q
      · subst hin
        rw [hbd] at hbd'
        cases Option.some.inj hbd'
        rw [hwn] at hw'
        cases hw'
      · by_cases hit : i ∈ tail
        · obtain ⟨r, hr⟩ := htexp i hit
          obtain ⟨bdx, hbdx, hndx⟩ := hinv.boards i r hiL hr
          rw [hbd'] at hbdx
          cases Option.some.inj hbdx
          rw [hw'] at hndx
          cases hndx
        · have hmem : i ∉ q :: tail := by simp [List.mem_cons, hin, hit]
          rw [huntouched i hmem, hget₁_old i hiL hin]
          exact hinv.terminal_value i bd' p' hiL hbd' hw' hp'
    · have hmem : i ∉ q :: tail := by
        intro hc
        have := hbounds i hc
        omega
      rw [huntouched i hmem, (hget₁_new i (by omega) (by omega)).2.2,
        (hget₁_new i (by omega) (by omega)).2.1]
      norm_num
  · intro hn3 i hi
    rw [hlenbp, hlen₁] at hi
    have hv1 : |(net bd).value| ≤ 1 := hn3 bd
    by_cases hmem : i ∈ q :: tail
    · obtain ⟨e, heabs, he⟩ := htouched i hmem
      rw [he, bump_total, bump_visits, htot₁ i, hvis₁ i]
      push_cast
      have hiL : i < ns.length := hbounds i hmem
      calc |(getNode ns i).total_value + e| ≤
          |(getNode ns i).total_value| + |e| := abs_add _ _
        _ ≤ ((getNode ns i).visits : ℚ) + 1 := by
            have := hinv.bounded hn3 i hiL
            rw [heabs]
            linarith
    · rw [huntouched i hmem, htot₁ i, hvis₁ i]
      by_cases hiL : i < ns.length
      · exact hinv.bounded hn3 i hiL
      · rw [getNode_oob (by omega : ns.length ≤ i)]
        simp [Node.new]

/-! ### One iteration, the loop, and the whole builder -/

theorem mctsIter_inv {B : Type} {g : Game B} {net : B → NetworkEvaluation}
    {sq : ℕ → ℚ} {ew : ℚ} {b0 : B} (hb0 : g.wonBy b0 = none)
    {ns ns' : List Node} {k : ℕ} (hinv : TreeInv g net b0 ns k)
    (hok : mctsIter g net sq ew b0 ns = .ok ns') :
    TreeInv g net b0 ns' (k + 1) := by
  obtain ⟨out, hwalk, hwo⟩ := walk_spec g sq ew b0 hinv.len_pos hinv.ranges
    hinv.disjoint (ns.length + 1) 0 b0 [] (by omega) (boardOf_zero g b0 ns) rfl
  rw [mctsIter, hwalk] at hok
  cases out with
  | terminal rp v =>
    dsimp only at hok
    exact terminal_step_inv hb0 hinv hwo hok
  | leaf rp n bd =>
    dsimp only at hok
    cases hexp : expandAt g net ns n bd with
    | error e =>
      rw [hexp] at hok
      exact absurd hok (by simp)
    | ok pair =>
      obtain ⟨ns₁, v⟩ := pair
      rw [hexp] at hok
      exact leaf_step_inv hb0 hinv hwo hexp hok

theorem mctsIter_exists {B : Type} {g : Game B} {net : B → NetworkEvaluation}
    {sq : ℕ → ℚ} {ew : ℚ} {b0 : B} (hwf : GameWF g) (_hb0 : g.wonBy b0 = none)
    {ns : List Node} {k : ℕ} (hinv : TreeInv g net b0 ns k) :
    ∃ ns', mctsIter g net sq ew b0 ns = .ok ns' := by
  obtain ⟨out, hwalk, hwo⟩ := walk_spec g sq ew b0 hinv.len_pos hinv.ranges
    hinv.disjoint (ns.length + 1) 0 b0 [] (by omega) (boardOf_zero g b0 ns) rfl
  rw [mctsIter, hwalk]
  cases out with
  | terminal rp v =>
    dsimp only
    obtain ⟨hne, hrp, _⟩ := hwo
    obtain ⟨ns'', hbp, _⟩ := backprop_spec rp ns v
      (RevPathOk.bounds hinv.len_pos hrp) (RevPathOk.nodup hrp)
    exact ⟨ns'', hbp⟩
  | leaf rp n bd =>
    dsimp only
    obtain ⟨hne, hrp, hhd, hbd, hwn, hnch⟩ := hwo
    have hn : n < ns.length := by
      obtain ⟨q, tail, rfl⟩ := List.exists_cons_of_ne_nil hne
      simp only [List.headD_cons] at hhd
      subst hhd
      exact RevPathOk.head_lt hinv.len_pos hrp
    obtain ⟨pair, hexp⟩ := @expandAt_exists B g net ns n bd hwf hwn hn hinv.len_pos
    obtain ⟨ns₁, v⟩ := pair
    rw [hexp]
    dsimp only
    obtain ⟨_, _, _, len', _, _, _, hns₁⟩ := expandAt_spec hexp
    simp only at hns₁
    have hlen₁ : ns.length ≤ ns₁.length := by
      rw [hns₁]
      simp
    obtain ⟨ns'', hbp, _⟩ := backprop_spec rp ns₁ v
      (fun x hx => lt_of_lt_of_le (RevPathOk.bounds hinv.len_pos hrp x hx) hlen₁)
      (RevPathOk.nodup hrp)
    exact ⟨ns'', hbp⟩

theorem runIters_spec {B : Type} (g : Game B) (net : B → NetworkEvaluation)
    (sq : ℕ → ℚ) (ew : ℚ) (b0 : B) (hwf : GameWF g) (hb0 : g.wonBy b0 = none) :
    ∀ (c : ℕ) (ns : List Node) (k : ℕ), TreeInv g net b0 ns k →
      ∃ ns', runIters g net sq ew b0 c ns = .ok ns' ∧
        TreeInv g net b0 ns' (k + c) := by
  intro c
  induction c with
  | zero =>
    intro ns k hinv
    exact ⟨ns, rfl, by simpa using hinv⟩
  | succ c ih =>
    intro ns k hinv
    obtain ⟨ns₁, hok⟩ := mctsIter_exists hwf hb0 hinv
    have hinv₁ := mctsIter_inv hb0 hinv hok
    obtain ⟨ns', hruns, hinv'⟩ := ih ns₁ (k + 1) hinv₁
    refine ⟨ns', ?_, ?_⟩
    · rw [runIters, hok]
      exact hruns
    · have : k + 1 + c = k + (c + 1) := by omega
      rw [← this]
      exact hinv'

theorem runIters_inv {B : Type} {g : Game B} {net : B → NetworkEvaluation}
    {sq : ℕ → ℚ} {ew : ℚ} {b0 : B} (hb0 : g.wonBy b0 = none) :
    ∀ (c : ℕ) (ns : List Node) (k : ℕ) (ns' : List Node),
      TreeInv g net b0 ns k → runIters g net sq ew b0 c ns = .ok ns' →
      TreeInv g net b0 ns' (k + c) := by
  intro c
  induction c with
  | zero =>
    intro ns k ns' hinv hok
    rw [runIters] at hok
    cases Except.ok.inj hok
    simpa using hinv
  | succ c ih =>
    intro ns k ns' hinv hok
    rw [runIters] at hok
    cases hiter : mctsIter g net sq ew b0 ns with
    | error e =>
      rw [hiter] at hok
      exact absurd hok (by simp)
    | ok ns₁ =>
      rw [hiter] at hok
      have hinv₁ := mctsIter_inv hb0 hinv hiter
      have := ih ns₁ (k + 1) ns' hinv₁ hok
      have harith : k + 1 + c = k + (c + 1) := by omega
      rw [← harith]
      exact this

theorem build_tree_inv {B : Type} {g : Game B} {net : B → NetworkEvaluation}
    {sq : ℕ → ℚ} {ew : ℚ} {b : B} {I : ℕ} {t : Tree B}
    (hok : mcts_zero_build_tree g net sq ew b I = .ok t) :
    g.wonBy b = none ∧ 0 < I ∧ t.root_board = b ∧
      TreeInv g net b t.nodes I := by
  rw [mcts_zero_build_tree] at hok
  by_cases hI : I = 0
  · rw [if_pos hI] at hok
    exact absurd hok (by simp)
  · rw [if_neg hI] at hok
    by_cases hdone : g.isDone b
    · rw [if_pos hdone] at hok
      exact absurd hok (by simp)
    · rw [if_neg hdone] at hok
      have hb : g.wonBy b = none := by
        rw [Game.isDone] at hdone
        exact Option.not_isSome_iff_eq_none.mp hdone
      cases hrun : runIters g net sq ew b I [Node.new 0 1] with
      | error e =>
        rw [hrun] at hok
        exact absurd hok (by simp)
      | ok ns =>
        rw [hrun] at hok
        dsimp only at hok
        have hinv := runIters_inv hb I [Node.new 0 1] 0 ns
          (TreeInv_init g net b hb) hrun
        by_cases hvis : (getNode ns 0).visits = I
        · rw [if_pos hvis] at hok
          cases Except.ok.inj hok
          exact ⟨hb, by omega, rfl, by simpa using hinv⟩
        · rw [if_neg hvis] at hok
          exact absurd hok (by simp)

theorem build_tree_exists {B : Type} {g : Game B} {net : B → NetworkEvaluation}
    {sq : ℕ → ℚ} {ew : ℚ} {b : B} {I : ℕ} (hwf : GameWF g)
    (hb : g.wonBy b = none) (hI : 0 < I) :
    ∃ t, mcts_zero_build_tree g net sq ew b I = .ok t ∧
      TreeInv g net b t.nodes I ∧ t.root_board = b := by
  rw [mcts_zero_build_tree, if_neg (by omega : ¬ I = 0),
    if_neg (by rw [Game.isDone, hb]; simp)]
  obtain ⟨ns, hrun, hinv⟩ := runIters_spec g net sq ew b hwf hb I [Node.new 0 1] 0
    (TreeInv_init g net b hb)
  rw [hrun]
  have hinv' : TreeInv g net b ns I := by simpa using hinv
  dsimp only
  rw [if_pos hinv'.root_visits]
  exact ⟨⟨b, ns⟩, rfl, hinv', rfl⟩

theorem tinyGameWF : GameWF tinyGame := by
  intro b hb
  have hb0 : b = 0 := by
    by_contra hc
    rw [show tinyGame.wonBy b = if b = 0 then none else some .player from rfl,
      if_neg hc] at hb
    cases hb
  subst hb0
  refine ⟨?_, ?_⟩
  · intro hc
    rw [show tinyGame.availableMoves 0 = [5] from rfl] at hc
    cases hc
  · rw [show tinyGame.availableMoves 0 = [5] from rfl]
    norm_num

theorem best_move_ok {B : Type} (t : Tree B) (r : IdxRange)
    (h1 : (getNode t.nodes 0).children = some r) (h2 : 0 < r.length)
    (h3 : r.start + r.length ≤ t.nodes.length) :
    ∃ m, t.best_move = .ok m := by
  rw [Tree.best_move.eq_def, h1]
  simp only
  rw [if_pos h3]
  obtain ⟨x, xs, hxs⟩ := List.exists_cons_of_ne_nil
    (show r.iter.reverse ≠ [] by
      simp only [ne_eq, List.reverse_eq_nil_iff, IdxRange.iter, List.range'_eq_nil]
      omega)
  rw [hxs]
  simp only [maxBy]
  exact ⟨_, rfl⟩

/-! ### Claim C2: root visit count -/

/-- C2 (confirmed): whenever `mcts_zero_build_tree` returns a tree (so for
every non-done board, every iteration count `I > 0`, every exploration weight,
every square-root rounding and every network), the root node has exactly `I`
visits. -/
theorem claim_C2_root_visits {B : Type} (g : Game B) (net : B → NetworkEvaluation)
    (sq : ℕ → ℚ) (ew : ℚ) (b : B) (I : ℕ) (t : Tree B)
    (hok : mcts_zero_build_tree g net sq ew b I = .ok t) :
    (getNode t.nodes 0).visits = I :=
  (build_tree_inv hok).2.2.2.root_visits

/-- C2 witness: on the concrete one-move game with `I = 2` the root has
2 visits. -/
theorem claim_C2_root_visits_witness :
    (getNode [⟨0, 1, 1, some 0, 1, 2, -1⟩, ⟨5, 0, 0, none, 1, 1, 1⟩] 0).visits = 2 :=
  claim_C2_root_visits tinyGame tinyNet (fun _ => 0) 1 0 2
    ⟨0, [⟨0, 1, 1, some 0, 1, 2, -1⟩, ⟨5, 0, 0, none, 1, 1, 1⟩]⟩
    (by with_unfolding_all rfl)

/-! ### Claim C9: the two preconditions -/

/-- C9 (confirmed): `mcts_zero_build_tree` fails loudly — before growing any
tree — when called with `iterations = 0` or with a done board, and for a
non-done board, positive iterations and a game meeting the Board contract it
returns a tree (no panic). -/
theorem claim_C9_preconditions {B : Type} (g : Game B)
    (net : B → NetworkEvaluation) (sq : ℕ → ℚ) (ew : ℚ) (b : B) (I : ℕ) :
    (I = 0 → mcts_zero_build_tree g net sq ew b I =
      .error "MCTS must run for at least 1 iteration") ∧
    (0 < I → g.isDone b → mcts_zero_build_tree g net sq ew b I =
      .error "Cannot build MCTS tree for done board") ∧
    (GameWF g → ¬ g.isDone b → 0 < I →
      ∃ t, mcts_zero_build_tree g net sq ew b I = .ok t) := by
  refine ⟨?_, ?_, ?_⟩
  · intro h
    rw [mcts_zero_build_tree, if_pos h]
  · intro hI hdone
    rw [mcts_zero_build_tree, if_neg (by omega), if_pos hdone]
  · intro hwf hdone hI
    have hb : g.wonBy b = none := by
      rw [Game.isDone] at hdone
      exact Option.not_isSome_iff_eq_none.mp hdone
    obtain ⟨t, hok, _⟩ := build_tree_exists hwf hb hI
    exact ⟨t, hok⟩

/-- C9 witness: on the one-move game, `I = 0` panics, a done board panics, and
a non-done board with `I = 2` succeeds. -/
theorem claim_C9_preconditions_witness :
    (mcts_zero_build_tree tinyGame tinyNet (fun _ => 0) 1 0 0 =
      .error "MCTS must run for at least 1 iteration") ∧
    (mcts_zero_build_tree tinyGame tinyNet (fun _ => 0) 1 1 1 =
      .error "Cannot build MCTS tree for done board") ∧
    (∃ t, mcts_zero_build_tree tinyGame tinyNet (fun _ => 0) 1 0 2 = .ok t) :=
  ⟨(claim_C9_preconditions tinyGame tinyNet (fun _ => 0) 1 0 0).1 rfl,
   (claim_C9_preconditions tinyGame tinyNet (fun _ => 0) 1 1 1).2.1 (by decide)
     (by decide),
   (claim_C9_preconditions tinyGame tinyNet (fun _ => 0) 1 0 2).2.2 tinyGameWF
     (by decide) (by decide)⟩

/-! ### Claim C7: visit sums and terminal leaves -/

/-- C7 (confirmed): once `mcts_zero_build_tree` returns, every expanded node
(expanded nodes all stand on non-terminal boards) satisfies
`visits = 1 + Σ children.visits`, and every node whose board is terminal has
no children. -/
theorem claim_C7_visit_sum {B : Type} (g : Game B) (net : B → NetworkEvaluation)
    (sq : ℕ → ℚ) (ew : ℚ) (b : B) (I : ℕ) (t : Tree B)
    (hok : mcts_zero_build_tree g net sq ew b I = .ok t) :
    (∀ i r, i < t.nodes.length → (getNode t.nodes i).children = some r →
      (getNode t.nodes i).visits = 1 + childrenVisitSum t.nodes r ∧
      (∃ bd, boardOf g b t.nodes i = some bd ∧ g.wonBy bd = none)) ∧
    (∀ i bd p, i < t.nodes.length → boardOf g b t.nodes i = some bd →
      g.wonBy bd = some p → (getNode t.nodes i).children = none) := by
  obtain ⟨hb, hI, hroot, hinv⟩ := build_tree_inv hok
  constructor
  · intro i r hi hr
    exact ⟨hinv.visit_sum i r hi hr, hinv.boards i r hi hr⟩
  · intro i bd p hi hbd hw
    cases hch : (getNode t.nodes i).children with
    | none => rfl
    | some r =>
      obtain ⟨bd', hbd', hnd⟩ := hinv.boards i r hi hch
      rw [hbd] at hbd'
      cases Option.some.inj hbd'
      rw [hw] at hnd
      cases hnd

/-- C7 witness: on the concrete two-node tree after `I = 2`, the root
(2 visits) has one child with 1 visit, and the terminal child has no
children. -/
theorem claim_C7_visit_sum_witness :
    (∀ i r, i < ([⟨0, 1, 1, some 0, 1, 2, -1⟩, ⟨5, 0, 0, none, 1, 1, 1⟩] : List Node).length →
      (getNode [⟨0, 1, 1, some 0, 1, 2, -1⟩, ⟨5, 0, 0, none, 1, 1, 1⟩] i).children = some r →
      (getNode [⟨0, 1, 1, some 0, 1, 2, -1⟩, ⟨5, 0, 0, none, 1, 1, 1⟩] i).visits =
        1 + childrenVisitSum [⟨0, 1, 1, some 0, 1, 2, -1⟩, ⟨5, 0, 0, none, 1, 1, 1⟩] r ∧
      (∃ bd, boardOf tinyGame 0 [⟨0, 1, 1, some 0, 1, 2, -1⟩, ⟨5, 0, 0, none, 1, 1, 1⟩] i = some bd ∧
        tinyGame.wonBy bd = none)) ∧
    (∀ i bd p, i < ([⟨0, 1, 1, some 0, 1, 2, -1⟩, ⟨5, 0, 0, none, 1, 1, 1⟩] : List Node).length →
      boardOf tinyGame 0 [⟨0, 1, 1, some 0, 1, 2, -1⟩, ⟨5, 0, 0, none, 1, 1, 1⟩] i = some bd →
      tinyGame.wonBy bd = some p →
      (getNode [⟨0, 1, 1, some 0, 1, 2, -1⟩, ⟨5, 0, 0, none, 1, 1, 1⟩] i).children = none) :=
  claim_C7_visit_sum tinyGame tinyNet (fun _ => 0) 1 0 2
    ⟨0, [⟨0, 1, 1, some 0, 1, 2, -1⟩, ⟨5, 0, 0, none, 1, 1, 1⟩]⟩
    (by with_unfolding_all rfl)

/-! ### Claim C8: value bound -/

/-- C8 (confirmed): if every network value lies in `[-1, 1]` then after
`mcts_zero_build_tree` returns, every node satisfies
`|total_value| ≤ visits` (in particular every node with `visits ≥ 1`). -/
theorem claim_C8_value_bound {B : Type} (g : Game B) (net : B → NetworkEvaluation)
    (sq : ℕ → ℚ) (ew : ℚ) (b : B) (I : ℕ) (t : Tree B)
    (hnet : ∀ bd, |(net bd).value| ≤ 1)
    (hok : mcts_zero_build_tree g net sq ew b I = .ok t) :
    ∀ i, i < t.nodes.length →
      |(getNode t.nodes i).total_value| ≤ ((getNode t.nodes i).visits : ℚ) :=
  fun i hi => (build_tree_inv hok).2.2.2.bounded hnet i hi

/-- C8 witness: node 1 of the concrete two-node tree satisfies `|1| ≤ 1`. -/
theorem claim_C8_value_bound_witness :
    |(getNode [⟨0, 1, 1, some 0, 1, 2, -1⟩, ⟨5, 0, 0, none, 1, 1, 1⟩] 1).total_value| ≤
      ((getNode [⟨0, 1, 1, some 0, 1, 2, -1⟩, ⟨5, 0, 0, none, 1, 1, 1⟩] 1).visits : ℚ) :=
  claim_C8_value_bound tinyGame tinyNet (fun _ => 0) 1 0 2
    ⟨0, [⟨0, 1, 1, some 0, 1, 2, -1⟩, ⟨5, 0, 0, none, 1, 1, 1⟩]⟩
    (fun _ => by norm_num [tinyNet])
    (by with_unfolding_all rfl)
    1 (by decide)

/-! ### Claim C1: sign of the backed-up values -/

/-- C1 counterexample: on the one-move game whose single root child is a
terminal loss for that child's side to move, after `I = 2` iterations the
child has `visits = 1` and `total_value = +1`, not `-1` as the claim
prescribes (`total_value = -visits`). -/
theorem claim_C1_sign_counterexample :
    mcts_zero_build_tree tinyGame tinyNet (fun _ => 0) 1 0 2 =
      .ok ⟨0, [⟨0, 1, 1, some 0, 1, 2, -1⟩, ⟨5, 0, 0, none, 1, 1, 1⟩]⟩ ∧
    tinyGame.wonBy (tinyGame.play 0 5) = some Player.player ∧
    (getNode [⟨0, 1, 1, some 0, 1, 2, -1⟩, ⟨5, 0, 0, none, 1, 1, 1⟩] 1).total_value = 1 ∧
    (getNode [⟨0, 1, 1, some 0, 1, 2, -1⟩, ⟨5, 0, 0, none, 1, 1, 1⟩] 1).visits = 1 ∧
    (1 : ℚ) ≠ -(1 : ℚ) := by
  refine ⟨by with_unfolding_all rfl, rfl, rfl, rfl, by norm_num⟩

/-- C1 (corrected): `total_value` is stored negated once relative to the side
to move at the node — i.e. from the perspective of the side to move at the
*parent* — because the backpropagation loop negates the value before updating
every entry of `parent_list`, including the deepest node itself.  Hence a node
whose board is a terminal win for a non-neutral player (a loss for the side to
move there) accumulates `total_value = +visits`, not `-visits`. -/
theorem claim_C1_terminal_child {B : Type} (g : Game B)
    (net : B → NetworkEvaluation) (sq : ℕ → ℚ) (ew : ℚ) (b : B) (I : ℕ)
    (t : Tree B) (hok : mcts_zero_build_tree g net sq ew b I = .ok t)
    (i : ℕ) (bd : B) (p : Player) (hi : i < t.nodes.length)
    (hbd : boardOf g b t.nodes i = some bd) (hw : g.wonBy bd = some p)
    (hp : p ≠ Player.neutral) :
    (getNode t.nodes i).total_value = ((getNode t.nodes i).visits : ℚ) :=
  (build_tree_inv hok).2.2.2.terminal_value i bd p hi hbd hw hp

/-- C1 witness: the terminal child of the concrete run has
`total_value = visits = 1`. -/
theorem claim_C1_terminal_child_witness :
    (getNode [⟨0, 1, 1, some 0, 1, 2, -1⟩, ⟨5, 0, 0, none, 1, 1, 1⟩] 1).total_value =
      ((getNode [⟨0, 1, 1, some 0, 1, 2, -1⟩, ⟨5, 0, 0, none, 1, 1, 1⟩] 1).visits : ℚ) :=
  claim_C1_terminal_child tinyGame tinyNet (fun _ => 0) 1 0 2
    ⟨0, [⟨0, 1, 1, some 0, 1, 2, -1⟩, ⟨5, 0, 0, none, 1, 1, 1⟩]⟩
    (by with_unfolding_all rfl) 1 1 Player.player (by decide)
    (by with_unfolding_all rfl) (by decide) (by decide)

/-! ### Claim C10: `MCTSZeroBot::play` -/

/-- C10 (confirmed, under the configuration contract `iterations > 0` and a
game meeting the Board contract): `play` returns `None` exactly on done
boards; on a non-done board it returns `Some` of the best move of the tree
built with the configured iteration count, never `None`. -/
theorem claim_C10_play {B : Type} (g : Game B) (net : B → NetworkEvaluation)
    (sq : ℕ → ℚ) (ew : ℚ) (I : ℕ) (b : B) (hwf : GameWF g) (hI : 0 < I) :
    (g.isDone b → MCTSZeroBot.play g net sq ew I b = .ok none) ∧
    (¬ g.isDone b → ∃ t m, mcts_zero_build_tree g net sq ew b I = .ok t ∧
      t.best_move = .ok m ∧ MCTSZeroBot.play g net sq ew I b = .ok (some m)) := by
  constructor
  · intro hdone
    rw [MCTSZeroBot.play, if_pos hdone]
  · intro hdone
    have hb : g.wonBy b = none := by
      rw [Game.isDone] at hdone
      exact Option.not_isSome_iff_eq_none.mp hdone
    obtain ⟨t, hok, hinv, hroot⟩ := build_tree_exists hwf hb hI
    obtain ⟨r, hr⟩ := Option.isSome_iff_exists.mp (hinv.root_expanded hI)
    obtain ⟨_, hbd, hpos⟩ := hinv.ranges 0 r hinv.len_pos hr
    obtain ⟨m, hbm⟩ := best_move_ok t r hr hpos hbd
    refine ⟨t, m, hok, hbm, ?_⟩
    rw [MCTSZeroBot.play, if_neg hdone, hok]
    dsimp only
    rw [hbm]

/-- C10 witness: on the one-move game with `I = 2`, the done board `1` yields
`None` and the non-done starting board `0` yields `Some` of the best move. -/
theorem claim_C10_play_witness :
    (MCTSZeroBot.play tinyGame tinyNet (fun _ => 0) 1 2 1 = .ok none) ∧
    (∃ t m, mcts_zero_build_tree tinyGame tinyNet (fun _ => 0) 1 0 2 = .ok t ∧
      t.best_move = .ok m ∧
      MCTSZeroBot.play tinyGame tinyNet (fun _ => 0) 1 2 0 = .ok (some m)) :=
  ⟨(claim_C10_play tinyGame tinyNet (fun _ => 0) 1 2 1 tinyGameWF (by decide)).1
      (by decide),
   (claim_C10_play tinyGame tinyNet (fun _ => 0) 1 2 0 tinyGameWF (by decide)).2
      (by decide)⟩

/-- C5 counterexample: the batched and unbatched drivers of `mcts_evaluate`
do NOT produce identical visit counts on every node for the same seed.  On the
one-move game from the non-done board `0`, with `I = 2` iterations, the same
(deterministic, exhausted) random stream, and playouts that are deterministic
here (the only playout board is already decided), the unbatched driver gives
the root 2 visits while the batched driver gives it only 1: the second batched
walk reaches the already-queued child, so the driver flushes the queue and
drops that walk without bumping any visit counter. -/
theorem claim_C5_batch_counterexample :
    (Sttt.mcts_evaluate tinyGame (fun _ => 0) (fun _ _ => .val 0) 4 0 2 false
        ⟨[]⟩).map (fun out => (Sttt.getNodeM out.1 0).visits) = .ok 2 ∧
    (Sttt.mcts_evaluate tinyGame (fun _ => 0) (fun _ _ => .val 0) 4 0 2 true
        ⟨[]⟩).map (fun out => (Sttt.getNodeM out.1 0).visits) = .ok 1 ∧
    (2 : ℕ) ≠ 1 :=
  ⟨by with_unfolding_all rfl, by with_unfolding_all rfl, by decide⟩

/-- C5 (corrected): the two drivers can diverge because the batched driver
drops a walk whenever the walk ends on a node that is already queued for
evaluation (it flushes the queue instead of queueing or backpropagating), so
its visit counts can fall below the unbatched ones.  Concretely, on the
one-move game from board `0` with `I = 2` and the same seed, the unbatched
driver returns a tree whose root and only child both have 2 visits, while the
batched driver returns 1 visit on both — the visit counts differ on every
node. -/
theorem claim_C5_batch_divergence :
    ∃ t1 e1 r1 t2 e2 r2,
      Sttt.mcts_evaluate tinyGame (fun _ => 0) (fun _ _ => .val 0) 4 0 2 false
          ⟨[]⟩ = .ok (t1, e1, r1) ∧
      Sttt.mcts_evaluate tinyGame (fun _ => 0) (fun _ _ => .val 0) 4 0 2 true
          ⟨[]⟩ = .ok (t2, e2, r2) ∧
      (Sttt.getNodeM t1 0).visits = 2 ∧ (Sttt.getNodeM t2 0).visits = 1 ∧
      (Sttt.getNodeM t1 1).visits = 2 ∧ (Sttt.getNodeM t2 1).visits = 1 ∧
      (Sttt.getNodeM t1 0).visits ≠ (Sttt.getNodeM t2 0).visits :=
  ⟨[⟨0, none, some ⟨1, 2⟩, 2, 0, false⟩, ⟨5, some 0, none, 2, 2, false⟩],
   ⟨some 5, .val 0⟩, ⟨[]⟩,
   [⟨0, none, some ⟨1, 2⟩, 1, 0, false⟩, ⟨5, some 0, none, 1, 1, false⟩],
   ⟨some 5, .val 0⟩, ⟨[]⟩,
   by with_unfolding_all rfl, by with_unfolding_all rfl,
   rfl, rfl, rfl, rfl, by decide⟩

end BoardGameRs

